import Mathlib

/-!
# Verification of the chess bot core (evaluator, search, opening book)

Shallow embedding of the decision-making core of the `lcasviana/chess`
repository:

* `src/src/services/chess-evaluator.ts` — the position evaluator
  (`ChessEvaluator.evaluate` and its term functions);
* `src/src/services/chess-bot.ts` — the alpha-beta search with a
  transposition cache (`ChessBot.minimax`, `ChessBot.getBestMove`,
  `ChessBot.orderMoves`), and the cache eviction routine
  `ChessBot.pruneCache` from the variant bot file;
* `src/packages/solidjs/src/utils/constants.ts` — the opening book
  (`OPENING_BOOK`, `isInBook`, `shouldUseBook`, `getBookMove`).

The third-party rules engine (chess.js) is external to the repository and is
modelled abstractly as a `Game` record of oracle functions (side to move,
legal moves, apply/undo, terminal predicates, board contents, FEN
serialization, SAN rendering).  Facts the library guarantees (for example
"undoing a just-applied move restores the position") appear as explicit
hypotheses of theorems, never baked into definitions.

JavaScript numbers are modelled as exact rationals (`ℚ`), and the
`-Infinity` / `Infinity` sentinels of the search as `WithBot (WithTop ℚ)`.
JavaScript `Map` (insertion ordered) is modelled as an association list.
`Math.random()` is modelled as an explicit stream `ℕ → ℚ` of draws together
with a cursor threaded through the computation.  Position mutation
(`chess.move` / `chess.undo`) is modelled by threading the position value
through the search and returning it, so that "the position is restored" is
a provable equation.
-/

set_option maxRecDepth 4000

namespace Chess

/-- Piece colors (`Color` of chess.js): `w` or `b`. -/
inductive Col : Type
  | w
  | b
deriving DecidableEq, Repr

/-- Piece symbols (`PieceSymbol` of chess.js). -/
inductive Psym : Type
  | p
  | n
  | b
  | r
  | q
  | k
deriving DecidableEq, Repr

/-- An occupied square as returned by `chess.board()`: a piece type and color. -/
structure CPiece : Type where
  ctype : Psym
  ccolor : Col
deriving DecidableEq, Repr

/-- A board as returned by `chess.board()`: 8 rows of 8 optional pieces
(row 0 is the 8th rank). -/
abbrev BoardT : Type := List (List (Option CPiece))

/-- Game phases (`GamePhase` in chess-evaluator.ts). -/
inductive GamePhase : Type
  | opening
  | middlegame
  | endgame
deriving DecidableEq, Repr

/-- Extended rationals with `-Infinity` and `Infinity`, the score domain of
the search (`-Infinity` is `⊥`, `Infinity` is `⊤`). -/
def XQ : Type := WithBot (WithTop ℚ)

instance : LinearOrder XQ := inferInstanceAs (LinearOrder (WithBot (WithTop ℚ)))
instance : OrderBot XQ := inferInstanceAs (OrderBot (WithBot (WithTop ℚ)))
instance : OrderTop XQ := inferInstanceAs (OrderTop (WithBot (WithTop ℚ)))
instance : DecidableEq XQ := inferInstanceAs (DecidableEq (WithBot (WithTop ℚ)))

/-- Embed a finite rational score into the extended score domain. -/
def qf (x : ℚ) : XQ := ((x : WithTop ℚ) : WithBot (WithTop ℚ))

theorem qf_lt_qf {x y : ℚ} : qf x < qf y ↔ x < y := by
  unfold qf
  rw [WithBot.coe_lt_coe, WithTop.coe_lt_coe]

theorem bot_lt_qf (x : ℚ) : (⊥ : XQ) < qf x := by
  unfold qf
  exact WithBot.bot_lt_coe _

theorem qf_lt_top (x : ℚ) : qf x < (⊤ : XQ) := by
  unfold qf
  have h : ((x : WithTop ℚ) : WithBot (WithTop ℚ)) < ((⊤ : WithTop ℚ) : WithBot (WithTop ℚ)) := by
    exact_mod_cast WithTop.coe_lt_top x
  simpa using h

theorem qf_ne_bot (x : ℚ) : qf x ≠ (⊥ : XQ) := by
  exact ne_of_gt (bot_lt_qf x)

theorem qf_ne_top (x : ℚ) : qf x ≠ (⊤ : XQ) := by
  exact ne_of_lt (qf_lt_top x)

/-!
## The abstract rules-engine interface

`Game Pos Move` packages the chess.js operations the core calls, as pure
functions over an abstract position type `Pos` and move type `Move`.
`makeMove p m` is the position after `chess.move(m)` on `p`; `undo p` is the
position after `chess.undo()` on `p`.  `movesNullSwitched p` is the number of
legal moves after switching the side to move in the FEN (the evaluator's
null-move trick), with `0` when the switched FEN fails to load.
-/

structure Game (Pos Move : Type) : Type where
  turn : Pos → Col
  fen : Pos → String
  moves : Pos → List Move
  makeMove : Pos → Move → Pos
  undo : Pos → Pos
  isGameOver : Pos → Bool
  isCheckmate : Pos → Bool
  isStalemate : Pos → Bool
  isThreefoldRepetition : Pos → Bool
  isInsufficientMaterial : Pos → Bool
  isDraw : Pos → Bool
  board : Pos → BoardT
  movesNullSwitched : Pos → Nat
  history : Pos → List String
  san : Pos → Move → Option String
  mCaptured : Move → Option Psym
  mPiece : Move → Psym
  mTo : Move → String

/-!
## Position evaluator (`src/src/services/chess-evaluator.ts`)
-/

/-- `PIECE_VALUES` of chess-evaluator.ts. -/
def PIECE_VALUES : Psym → ℚ
  | Psym.p => 1
  | Psym.n => 3
  | Psym.b => 3
  | Psym.r => 5
  | Psym.q => 9
  | Psym.k => 0

/-- `PAWN_TABLE` of chess-evaluator.ts. -/
def PAWN_TABLE : List (List ℚ) :=
  [[0, 0, 0, 0, 0, 0, 0, 0],
   [50, 50, 50, 50, 50, 50, 50, 50],
   [10, 10, 20, 30, 30, 20, 10, 10],
   [5, 5, 10, 25, 25, 10, 5, 5],
   [0, 0, 0, 20, 20, 0, 0, 0],
   [5, -5, -10, 0, 0, -10, -5, 5],
   [5, 10, 10, -20, -20, 10, 10, 5],
   [0, 0, 0, 0, 0, 0, 0, 0]]

/-- `KNIGHT_TABLE` of chess-evaluator.ts. -/
def KNIGHT_TABLE : List (List ℚ) :=
  [[-50, -40, -30, -30, -30, -30, -40, -50],
   [-40, -20, 0, 0, 0, 0, -20, -40],
   [-30, 0, 10, 15, 15, 10, 0, -30],
   [-30, 5, 15, 20, 20, 15, 5, -30],
   [-30, 0, 15, 20, 20, 15, 0, -30],
   [-30, 5, 10, 15, 15, 10, 5, -30],
   [-40, -20, 0, 5, 5, 0, -20, -40],
   [-50, -40, -30, -30, -30, -30, -40, -50]]

/-- `BISHOP_TABLE` of chess-evaluator.ts. -/
def BISHOP_TABLE : List (List ℚ) :=
  [[-20, -10, -10, -10, -10, -10, -10, -20],
   [-10, 0, 0, 0, 0, 0, 0, -10],
   [-10, 0, 5, 10, 10, 5, 0, -10],
   [-10, 5, 5, 10, 10, 5, 5, -10],
   [-10, 0, 10, 10, 10, 10, 0, -10],
   [-10, 10, 10, 10, 10, 10, 10, -10],
   [-10, 5, 0, 0, 0, 0, 5, -10],
   [-20, -10, -10, -10, -10, -10, -10, -20]]

/-- `ROOK_TABLE` of chess-evaluator.ts. -/
def ROOK_TABLE : List (List ℚ) :=
  [[0, 0, 0, 0, 0, 0, 0, 0],
   [5, 10, 10, 10, 10, 10, 10, 5],
   [-5, 0, 0, 0, 0, 0, 0, -5],
   [-5, 0, 0, 0, 0, 0, 0, -5],
   [-5, 0, 0, 0, 0, 0, 0, -5],
   [-5, 0, 0, 0, 0, 0, 0, -5],
   [-5, 0, 0, 0, 0, 0, 0, -5],
   [0, 0, 0, 5, 5, 0, 0, 0]]

/-- `QUEEN_TABLE` of chess-evaluator.ts. -/
def QUEEN_TABLE : List (List ℚ) :=
  [[-20, -10, -10, -5, -5, -10, -10, -20],
   [-10, 0, 0, 0, 0, 0, 0, -10],
   [-10, 0, 5, 5, 5, 5, 0, -10],
   [-5, 0, 5, 5, 5, 5, 0, -5],
   [0, 0, 5, 5, 5, 5, 0, -5],
   [-10, 5, 5, 5, 5, 5, 0, -10],
   [-10, 0, 5, 0, 0, 0, 0, -10],
   [-20, -10, -10, -5, -5, -10, -10, -20]]

/-- `KING_MIDDLEGAME_TABLE` of chess-evaluator.ts. -/
def KING_MIDDLEGAME_TABLE : List (List ℚ) :=
  [[-30, -40, -40, -50, -50, -40, -40, -30],
   [-30, -40, -40, -50, -50, -40, -40, -30],
   [-30, -40, -40, -50, -50, -40, -40, -30],
   [-30, -40, -40, -50, -50, -40, -40, -30],
   [-20, -30, -30, -40, -40, -30, -30, -20],
   [-10, -20, -20, -20, -20, -20, -20, -10],
   [20, 20, 0, 0, 0, 0, 20, 20],
   [20, 30, 10, 0, 0, 10, 30, 20]]

/-- `KING_ENDGAME_TABLE` of chess-evaluator.ts. -/
def KING_ENDGAME_TABLE : List (List ℚ) :=
  [[-50, -40, -30, -20, -20, -30, -40, -50],
   [-30, -20, -10, 0, 0, -10, -20, -30],
   [-30, -10, 20, 30, 30, 20, -10, -30],
   [-30, -10, 30, 40, 40, 30, -10, -30],
   [-30, -10, 30, 40, 40, 30, -10, -30],
   [-30, -10, 20, 30, 30, 20, -10, -30],
   [-30, -30, 0, 0, 0, 0, -30, -30],
   [-50, -30, -30, -30, -30, -30, -30, -50]]

/-- The per-phase evaluation weights (`PhaseWeights` of chess-evaluator.ts). -/
structure PhaseWeights : Type where
  material : ℚ
  positional : ℚ
  mobility : ℚ
  kingSafety : ℚ
  pawnStructure : ℚ
  development : ℚ
deriving DecidableEq, Repr

/-- `PHASE_WEIGHTS` of chess-evaluator.ts. -/
def PHASE_WEIGHTS : GamePhase → PhaseWeights
  | GamePhase.opening =>
      { material := 1, positional := 3/10, mobility := 15/100,
        kingSafety := 2/10, pawnStructure := 1/10, development := 5/10 }
  | GamePhase.middlegame =>
      { material := 1, positional := 5/10, mobility := 3/10,
        kingSafety := 4/10, pawnStructure := 2/10, development := 1/10 }
  | GamePhase.endgame =>
      { material := 1, positional := 4/10, mobility := 25/100,
        kingSafety := 1/10, pawnStructure := 3/10, development := 0 }

/-- Read a square from a `chess.board()` array: `board[rank][file]`. -/
def boardGet (b : BoardT) (rank file : Nat) : Option CPiece :=
  ((b.getD rank []).getD file none)

/-- `ChessEvaluator.detectGamePhase`: total non-king material over the whole
board, then `>30` opening, `>15` middlegame, otherwise endgame. -/
def totalNonKingMaterial (b : BoardT) : ℚ :=
  b.foldl
    (fun acc row =>
      row.foldl
        (fun acc2 sq =>
          match sq with
          | some piece => if piece.ctype ≠ Psym.k then acc2 + PIECE_VALUES piece.ctype else acc2
          | none => acc2)
        acc)
    0

/-- `ChessEvaluator.detectGamePhase` of chess-evaluator.ts. -/
def detectGamePhase (b : BoardT) : GamePhase :=
  let totalMaterial := totalNonKingMaterial b
  if 30 < totalMaterial then GamePhase.opening
  else if 15 < totalMaterial then GamePhase.middlegame
  else GamePhase.endgame

/-- `ChessEvaluator.getPieceSquareValue`, with the square already split into
file and rank indices (the source round-trips through the square name
string; the string conversion is the identity on these indices). -/
def getPieceSquareValue (piece : Psym) (file rank : Nat) (color : Col) (phase : GamePhase) : ℚ :=
  let row := if color = Col.w then 7 - rank else rank
  let col := file
  let table : List (List ℚ) :=
    match piece with
    | Psym.p => PAWN_TABLE
    | Psym.n => KNIGHT_TABLE
    | Psym.b => BISHOP_TABLE
    | Psym.r => ROOK_TABLE
    | Psym.q => QUEEN_TABLE
    | Psym.k => if phase = GamePhase.endgame then KING_ENDGAME_TABLE else KING_MIDDLEGAME_TABLE
  ((table.getD row []).getD col 0) / 100

/-- `ChessEvaluator.evaluateMaterial` of chess-evaluator.ts. -/
def evaluateMaterial (b : BoardT) (color : Col) : ℚ :=
  b.foldl
    (fun acc row =>
      row.foldl
        (fun acc2 sq =>
          match sq with
          | some piece =>
              let value := PIECE_VALUES piece.ctype
              acc2 + (if piece.ccolor = color then value else -value)
          | none => acc2)
        acc)
    0

/-- `ChessEvaluator.evaluatePositional` of chess-evaluator.ts. -/
def evaluatePositional (b : BoardT) (color : Col) (phase : GamePhase) : ℚ :=
  (List.range 8).foldl
    (fun acc rank =>
      (List.range 8).foldl
        (fun acc2 file =>
          match boardGet b rank file with
          | some sq =>
              let value := getPieceSquareValue sq.ctype file rank sq.ccolor phase
              acc2 + (if sq.ccolor = color then value else -value)
          | none => acc2)
        acc)
    0

/-- `ChessEvaluator.evaluateMobility` of chess-evaluator.ts: legal-move count
difference, with the opponent's count obtained from a null-move FEN switch
(`movesNullSwitched`, `0` when the switched FEN fails to load), and an
estimate of `20` own moves when evaluating for the side not to move. -/
def evaluateMobility {Pos Move : Type} (g : Game Pos Move) (pos : Pos) (color : Col) : ℚ :=
  let currentTurn := g.turn pos
  if currentTurn = color then
    let ourMoves : ℚ := (g.moves pos).length
    let theirMoves : ℚ := g.movesNullSwitched pos
    (ourMoves - theirMoves) * (1/10)
  else
    let theirMoves : ℚ := (g.moves pos).length
    let ourMoves : ℚ := 20
    (ourMoves - theirMoves) * (1/10)

/-- First king square of the given color in board scan order (rank 0..7 then
file 0..7, with the source's double `break`): returns `(rank, file)`. -/
def findKingSquare (b : BoardT) (color : Col) : Option (Nat × Nat) :=
  (List.range 8).findSome? fun rank =>
    (List.range 8).findSome? fun file =>
      match boardGet b rank file with
      | some sq => if sq.ctype = Psym.k ∧ sq.ccolor = color then some (rank, file) else none
      | none => none

/-- `ChessEvaluator.evaluateKingSafety` of chess-evaluator.ts (rank-based
bonus / penalty only; the computed file is unused in the source). -/
def evaluateKingSafety (b : BoardT) (color : Col) : ℚ :=
  match findKingSquare b color with
  | none => 0
  | some (rank, _) =>
      let part1 : ℚ :=
        if color = Col.w ∧ rank < 2 then 1/2
        else if color = Col.b ∧ 5 < rank then 1/2
        else 0
      let part2 : ℚ :=
        if color = Col.w ∧ 3 < rank then -(1/2)
        else if color = Col.b ∧ rank < 4 then -(1/2)
        else 0
      part1 + part2

/-- Number of pawns of `color` on `file` (the `pawnFiles` tally of
`evaluatePawnStructure`). -/
def pawnCount (b : BoardT) (color : Col) (file : Nat) : Nat :=
  ((List.range 8).filter fun rank =>
    match boardGet b rank file with
    | some sq => sq.ctype = Psym.p ∧ sq.ccolor = color
    | none => false).length

/-- `ChessEvaluator.evaluatePawnStructure` of chess-evaluator.ts: `-0.5` per
extra pawn on a doubled file, `+0.1` per adjacent pair of occupied files
(JavaScript iterates the numeric file keys in ascending order). -/
def evaluatePawnStructure (b : BoardT) (color : Col) : ℚ :=
  let doubled : ℚ :=
    (List.range 8).foldl
      (fun acc file =>
        let c := pawnCount b color file
        if 1 < c then acc - (1/2) * ((c : ℚ) - 1) else acc)
      0
  let files := (List.range 8).filter (fun file => 0 < pawnCount b color file)
  let connected : ℚ :=
    (files.zip files.tail).foldl
      (fun acc pair => if pair.2 - pair.1 = 1 then acc + (1/10) else acc)
      0
  doubled + connected

/-- `ChessEvaluator.evaluateDevelopment` of chess-evaluator.ts: `-0.2` per
knight or bishop of `color` still on row `0` (White) or `7` (Black) of the
`chess.board()` array, `+0.3` per own piece on d4, d5, e4, e5 (as
`board[rank][file]` indices `(3,3)`, `(4,3)`, `(3,4)`, `(4,4)`). -/
def evaluateDevelopment (b : BoardT) (color : Col) : ℚ :=
  let backRank := if color = Col.w then 0 else 7
  let undeveloped : ℚ :=
    (List.range 8).foldl
      (fun acc file =>
        match boardGet b backRank file with
        | some sq =>
            if sq.ccolor = color ∧ (sq.ctype = Psym.n ∨ sq.ctype = Psym.b) then acc - (2/10)
            else acc
        | none => acc)
      0
  let center : ℚ :=
    [(3, 3), (4, 3), (3, 4), (4, 4)].foldl
      (fun acc rf =>
        match boardGet b rf.1 rf.2 with
        | some piece => if piece.ccolor = color then acc + (3/10) else acc
        | none => acc)
      0
  undeveloped + center

/-- `ChessEvaluator.evaluate` of chess-evaluator.ts: terminal checks first
(checkmate `±1000` by side to move, any draw `0`), otherwise the weighted
sum of the six heuristic terms using the detected phase's weights. -/
def evaluate {Pos Move : Type} (g : Game Pos Move) (pos : Pos) (color : Col) : ℚ :=
  if g.isCheckmate pos then
    (if g.turn pos = color then -1000 else 1000)
  else if g.isDraw pos || g.isStalemate pos || g.isThreefoldRepetition pos then
    0
  else
    let b := g.board pos
    let phase := detectGamePhase b
    let weights := PHASE_WEIGHTS phase
    let material := evaluateMaterial b color * weights.material
    let positional := evaluatePositional b color phase * weights.positional
    let mobility := evaluateMobility g pos color * weights.mobility
    let kingSafety := evaluateKingSafety b color * weights.kingSafety
    let pawnStructure := evaluatePawnStructure b color * weights.pawnStructure
    let development := evaluateDevelopment b color * weights.development
    material + positional + mobility + kingSafety + pawnStructure + development

end Chess

namespace Chess

/-!
## Spec-side evaluation sums (for claim C4)
-/

/-- The five-term weighted sum asserted by the spec: material, positional,
king-safety, pawn-structure, development, with the phase's weights.  Written
from the spec's words, to be compared with `evaluate`. -/
def fiveTermScore {Pos Move : Type} (g : Game Pos Move) (pos : Pos) (color : Col) : ℚ :=
  let b := g.board pos
  let phase := detectGamePhase b
  let weights := PHASE_WEIGHTS phase
  evaluateMaterial b color * weights.material +
    evaluatePositional b color phase * weights.positional +
    evaluateKingSafety b color * weights.kingSafety +
    evaluatePawnStructure b color * weights.pawnStructure +
    evaluateDevelopment b color * weights.development

/-- The six-term weighted sum the code actually computes: the five spec
terms plus the mobility term (weights 0.15 / 0.3 / 0.25 by phase). -/
def sixTermScore {Pos Move : Type} (g : Game Pos Move) (pos : Pos) (color : Col) : ℚ :=
  let b := g.board pos
  let phase := detectGamePhase b
  let weights := PHASE_WEIGHTS phase
  evaluateMaterial b color * weights.material +
    evaluatePositional b color phase * weights.positional +
    evaluateMobility g pos color * weights.mobility +
    evaluateKingSafety b color * weights.kingSafety +
    evaluatePawnStructure b color * weights.pawnStructure +
    evaluateDevelopment b color * weights.development

/-!
## Concrete game instances used as witnesses and counterexamples

Positions are modelled as paths (`List ℕ` of move indices, most recent
first), moves as indices, so that `undo (makeMove p m) = p` holds
definitionally.
-/

/-- An empty `chess.board()` array. -/
def emptyBoard : BoardT := List.replicate 8 (List.replicate 8 none)

def wPc (t : Psym) : Option CPiece := some ⟨t, Col.w⟩

def bPc (t : Psym) : Option CPiece := some ⟨t, Col.b⟩

/-- The `chess.board()` array after 1.e4 (row 0 is the 8th rank). -/
def boardAfterE4 : BoardT :=
  [[bPc Psym.r, bPc Psym.n, bPc Psym.b, bPc Psym.q, bPc Psym.k, bPc Psym.b, bPc Psym.n, bPc Psym.r],
   [bPc Psym.p, bPc Psym.p, bPc Psym.p, bPc Psym.p, bPc Psym.p, bPc Psym.p, bPc Psym.p, bPc Psym.p],
   List.replicate 8 none,
   List.replicate 8 none,
   [none, none, none, none, wPc Psym.p, none, none, none],
   List.replicate 8 none,
   [wPc Psym.p, wPc Psym.p, wPc Psym.p, wPc Psym.p, none, wPc Psym.p, wPc Psym.p, wPc Psym.p],
   [wPc Psym.r, wPc Psym.n, wPc Psym.b, wPc Psym.q, wPc Psym.k, wPc Psym.b, wPc Psym.n, wPc Psym.r]]

/-- A checkmate position (White to move and mated), used to witness C1. -/
def gC1 : Game (List ℕ) ℕ :=
  { turn := fun _ => Col.w
    fen := fun _ => "f"
    moves := fun _ => []
    makeMove := fun p m => m :: p
    undo := fun p => p.tail
    isGameOver := fun _ => true
    isCheckmate := fun _ => true
    isStalemate := fun _ => false
    isThreefoldRepetition := fun _ => false
    isInsufficientMaterial := fun _ => false
    isDraw := fun _ => false
    board := fun _ => emptyBoard
    movesNullSwitched := fun _ => 0
    history := fun _ => []
    san := fun _ _ => none
    mCaptured := fun _ => none
    mPiece := fun _ => Psym.p
    mTo := fun _ => "z" }

/-- The position after 1.e4, Black to move: 20 legal replies for Black, 30
hypothetical moves for White after a null-move turn switch.  Used for C4. -/
def gC4 : Game (List ℕ) ℕ :=
  { turn := fun _ => Col.b
    fen := fun _ => "f"
    moves := fun _ => List.range 20
    makeMove := fun p m => m :: p
    undo := fun p => p.tail
    isGameOver := fun _ => false
    isCheckmate := fun _ => false
    isStalemate := fun _ => false
    isThreefoldRepetition := fun _ => false
    isInsufficientMaterial := fun _ => false
    isDraw := fun _ => false
    board := fun _ => boardAfterE4
    movesNullSwitched := fun _ => 30
    history := fun _ => ["e4"]
    san := fun _ _ => none
    mCaptured := fun _ => none
    mPiece := fun _ => Psym.p
    mTo := fun _ => "z" }

/-!
## Claim C1: terminal evaluation
-/

/-- C1: for every position and perspective color, `evaluate` returns exactly
`-1000` on checkmate with the side to move equal to the perspective color,
`+1000` on checkmate otherwise, and exactly `0` whenever any draw condition
holds (stalemate, insufficient material, threefold repetition, or general
draw) — regardless of the material on the board.  The hypothesis `hins`
records the rules-engine guarantee that insufficient material implies
`isDraw` (chess.js folds it into `isDraw()`, which is the predicate the
evaluator consults). -/
theorem evaluate_terminal {Pos Move : Type} (g : Game Pos Move) (pos : Pos) (color : Col)
    (hins : g.isInsufficientMaterial pos = true → g.isDraw pos = true)
    (hterm : g.isCheckmate pos = true ∨
      (g.isCheckmate pos = false ∧
        (g.isStalemate pos = true ∨ g.isInsufficientMaterial pos = true ∨
          g.isThreefoldRepetition pos = true ∨ g.isDraw pos = true))) :
    evaluate g pos color =
      (if g.isCheckmate pos then (if g.turn pos = color then -1000 else 1000) else 0) := by
  unfold evaluate
  rcases hterm with hcm | ⟨hcm, hdr⟩
  · simp [hcm]
  · have hd : (g.isDraw pos || g.isStalemate pos || g.isThreefoldRepetition pos) = true := by
      rcases hdr with h | h | h | h
      · simp [h]
      · simp [hins h]
      · simp [h]
      · simp [h]
    simp [hcm, hd]

/-- Witness for C1 at a concrete checkmate position. -/
theorem evaluate_terminal_witness :
    (gC1.isInsufficientMaterial [] = true → gC1.isDraw [] = true) ∧
      (gC1.isCheckmate [] = true ∨
        (gC1.isCheckmate [] = false ∧
          (gC1.isStalemate [] = true ∨ gC1.isInsufficientMaterial [] = true ∨
            gC1.isThreefoldRepetition [] = true ∨ gC1.isDraw [] = true))) ∧
      evaluate gC1 [] Col.w = -1000 := by
  refine ⟨fun h => absurd h (by decide), Or.inl (by decide), ?_⟩
  have h := evaluate_terminal gC1 [] Col.w (fun h => absurd h (by decide)) (Or.inl (by decide))
  rw [h]
  with_unfolding_all decide

/-!
## Claim C4: the evaluator's weighted sum
-/

/-- C4 counterexample: at the position after 1.e4 evaluated for Black, the
code's score differs from the spec's five-term weighted sum — the code also
adds a sixth, mobility, term ((20 - 30) * 0.1 * 0.15 = -0.15 here). -/
theorem evaluate_ne_fiveTermScore : evaluate gC4 [] Col.b ≠ fiveTermScore gC4 [] Col.b := by
  with_unfolding_all decide

/-- C4 (amended): for every non-terminal position the evaluator's score is
the weighted sum of exactly six terms — material (weight 1.0), positional,
mobility, king-safety, pawn-structure, development — with the weight vector
of the phase detected from total non-king material (>30 opening, >15
middlegame, else endgame), and the development weight is 0 in the endgame. -/
theorem evaluate_eq_sixTermScore {Pos Move : Type} (g : Game Pos Move) (pos : Pos) (color : Col)
    (hcm : g.isCheckmate pos = false)
    (hdr : (g.isDraw pos || g.isStalemate pos || g.isThreefoldRepetition pos) = false) :
    evaluate g pos color = sixTermScore g pos color ∧
      (PHASE_WEIGHTS GamePhase.endgame).development = 0 := by
  constructor
  · unfold evaluate sixTermScore
    simp [hcm, hdr]
  · rfl

/-- Witness for the amended C4 at the concrete position after 1.e4. -/
theorem evaluate_eq_sixTermScore_witness :
    gC4.isCheckmate [] = false ∧
      (gC4.isDraw [] || gC4.isStalemate [] || gC4.isThreefoldRepetition []) = false ∧
      evaluate gC4 [] Col.b = sixTermScore gC4 [] Col.b := by
  refine ⟨by decide, by decide, ?_⟩
  exact (evaluate_eq_sixTermScore gC4 [] Col.b (by decide) (by decide)).1

end Chess

namespace Chess

/-!
## Opening book (`src/packages/solidjs/src/utils/constants.ts`)
-/

/-- `OpeningMove` of constants.ts. -/
structure OpeningMove : Type where
  move : String
  weight : ℚ
deriving DecidableEq, Repr

/-- `OpeningBookEntry` of constants.ts (`variation` and `moves` optional). -/
structure OpeningBookEntry : Type where
  name : String
  variation : Option String := none
  moves : Option (List OpeningMove) := none
deriving DecidableEq, Repr

/-- A book table: JavaScript object modelled as a key-ordered association
list (all keys distinct). -/
abbrev BookT : Type := List (String × OpeningBookEntry)

/-- First entry under an exactly matching key (JavaScript property lookup). -/
def bookLookup : BookT → String → Option OpeningBookEntry
  | [], _ => none
  | (k, e) :: rest, key => if k = key then some e else bookLookup rest key

/-- `chess.history().join(",")`. -/
def historyKey (h : List String) : String := String.intercalate "," h

/-- `OPENING_BOOK` of constants.ts, part 1 of 7 (transcribed in full,
split only to keep elaboration linear). -/
def OPENING_BOOK_1 : BookT :=
  [("", { name := "Starting Position",
          moves := some [⟨"e4", 40⟩, ⟨"d4", 35⟩, ⟨"Nf3", 15⟩, ⟨"c4", 10⟩] }),
   ("e4", { name := "King's Pawn Opening",
            moves := some [⟨"e5", 50⟩, ⟨"c5", 30⟩, ⟨"e6", 10⟩, ⟨"c6", 5⟩, ⟨"d5", 5⟩] }),
   ("e4,e5", { name := "King's Pawn Game",
               moves := some [⟨"Nf3", 60⟩, ⟨"Bc4", 20⟩, ⟨"Nc3", 10⟩, ⟨"f4", 10⟩] }),
   ("e4,e5,Nf3", { name := "King's Knight Opening",
                   moves := some [⟨"Nc6", 60⟩, ⟨"Nf6", 30⟩, ⟨"d6", 10⟩] }),
   ("e4,e5,Nf3,Nc6", { name := "King's Knight Opening",
                       moves := some [⟨"Bc4", 45⟩, ⟨"Bb5", 45⟩, ⟨"d4", 10⟩] }),
   ("e4,e5,Nf3,Nc6,Bc4", { name := "Italian Game",
                           moves := some [⟨"Bc5", 50⟩, ⟨"Nf6", 30⟩, ⟨"Be7", 20⟩] }),
   ("e4,e5,Nf3,Nc6,Bc4,Bc5", { name := "Italian Game", variation := some "Giuoco Piano",
                               moves := some [⟨"c3", 50⟩, ⟨"d3", 30⟩, ⟨"Nc3", 20⟩] }),
   ("e4,e5,Nf3,Nc6,Bc4,Bc5,c3", { name := "Italian Game",
                                  variation := some "Giuoco Piano Main Line" }),
   ("e4,e5,Nf3,Nc6,Bc4,Bc5,d3", { name := "Italian Game",
                                  variation := some "Giuoco Pianissimo" }),
   ("e4,e5,Nf3,Nc6,Bc4,Nf6", { name := "Italian Game",
                               variation := some "Two Knights Defense" }),
   ("e4,e5,Nf3,Nc6,Bc4,Be7", { name := "Italian Game",
                               variation := some "Hungarian Defense" }),
   ("e4,e5,Nf3,Nc6,Bb5", { name := "Ruy Lopez",
                           moves := some [⟨"a6", 70⟩, ⟨"Nf6", 20⟩, ⟨"d6", 10⟩] }),
   ("e4,e5,Nf3,Nc6,Bb5,a6", { name := "Ruy Lopez", variation := some "Morphy Defense",
                              moves := some [⟨"Ba4", 80⟩, ⟨"Bxc6", 20⟩] }),
   ("e4,e5,Nf3,Nc6,Bb5,a6,Ba4", { name := "Ruy Lopez",
                                  variation := some "Morphy Defense Main Line" }),
   ("e4,e5,Nf3,Nc6,Bb5,a6,Bxc6", { name := "Ruy Lopez",
                                   variation := some "Exchange Variation" })]

/-- `OPENING_BOOK` of constants.ts, part 2 of 7 (transcribed in full,
split only to keep elaboration linear). -/
def OPENING_BOOK_2 : BookT :=
  [("e4,e5,Nf3,Nc6,Bb5,Nf6", { name := "Ruy Lopez", variation := some "Berlin Defense" }),
   ("e4,e5,Nf3,Nc6,Bb5,d6", { name := "Ruy Lopez", variation := some "Steinitz Defense" }),
   ("e4,e5,Nf3,Nc6,d4", { name := "Scotch Game" }),
   ("e4,e5,Nf3,Nf6", { name := "Petrov's Defense" }),
   ("e4,e5,Nf3,d6", { name := "Philidor Defense" }),
   ("e4,e5,Bc4", { name := "Bishop's Opening" }),
   ("e4,e5,Nc3", { name := "Vienna Game" }),
   ("e4,e5,f4", { name := "King's Gambit" }),
   ("e4,c5", { name := "Sicilian Defense",
               moves := some [⟨"Nf3", 70⟩, ⟨"Nc3", 20⟩, ⟨"c3", 10⟩] }),
   ("e4,c5,Nf3", { name := "Sicilian Defense", variation := some "Open Sicilian",
                   moves := some [⟨"d6", 40⟩, ⟨"Nc6", 35⟩, ⟨"e6", 15⟩, ⟨"g6", 10⟩] }),
   ("e4,c5,Nf3,d6", { name := "Sicilian Defense", variation := some "Najdorf/Dragon Setup",
                      moves := some [⟨"d4", 90⟩, ⟨"Bb5+", 10⟩] }),
   ("e4,c5,Nf3,d6,d4", { name := "Sicilian Defense", variation := some "Open Sicilian",
                         moves := some [⟨"cxd4", 100⟩] }),
   ("e4,c5,Nf3,d6,d4,cxd4", { name := "Sicilian Defense", variation := some "Open Sicilian",
                              moves := some [⟨"Nxd4", 100⟩] }),
   ("e4,c5,Nf3,d6,d4,cxd4,Nxd4", { name := "Sicilian Defense",
                                   variation := some "Open Sicilian" }),
   ("e4,c5,Nf3,Nc6", { name := "Sicilian Defense", variation := some "Old Sicilian" })]

/-- `OPENING_BOOK` of constants.ts, part 3 of 7 (transcribed in full,
split only to keep elaboration linear). -/
def OPENING_BOOK_3 : BookT :=
  [("e4,c5,Nf3,e6", { name := "Sicilian Defense", variation := some "Paulsen/Taimanov" }),
   ("e4,c5,Nf3,g6", { name := "Sicilian Defense",
                      variation := some "Hyperaccelerated Dragon" }),
   ("e4,c5,Nc3", { name := "Sicilian Defense", variation := some "Closed Sicilian" }),
   ("e4,c5,c3", { name := "Sicilian Defense", variation := some "Alapin Variation" }),
   ("e4,e6", { name := "French Defense",
               moves := some [⟨"d4", 80⟩, ⟨"d3", 10⟩, ⟨"Nf3", 10⟩] }),
   ("e4,e6,d4", { name := "French Defense", moves := some [⟨"d5", 100⟩] }),
   ("e4,e6,d4,d5", { name := "French Defense",
                     moves := some [⟨"Nc3", 50⟩, ⟨"Nd2", 30⟩, ⟨"e5", 20⟩] }),
   ("e4,e6,d4,d5,Nc3", { name := "French Defense", variation := some "Winawer/Classical" }),
   ("e4,e6,d4,d5,Nd2", { name := "French Defense", variation := some "Tarrasch" }),
   ("e4,e6,d4,d5,e5", { name := "French Defense", variation := some "Advance Variation" }),
   ("e4,e6,d3", { name := "French Defense", variation := some "King's Indian Attack" }),
   ("e4,c6", { name := "Caro-Kann Defense",
               moves := some [⟨"d4", 80⟩, ⟨"Nc3", 15⟩, ⟨"Nf3", 5⟩] }),
   ("e4,c6,d4", { name := "Caro-Kann Defense", moves := some [⟨"d5", 100⟩] }),
   ("e4,c6,d4,d5", { name := "Caro-Kann Defense",
                     moves := some [⟨"Nc3", 50⟩, ⟨"Nd2", 30⟩, ⟨"e5", 20⟩] }),
   ("e4,c6,d4,d5,Nc3", { name := "Caro-Kann Defense", variation := some "Classical" })]

/-- `OPENING_BOOK` of constants.ts, part 4 of 7 (transcribed in full,
split only to keep elaboration linear). -/
def OPENING_BOOK_4 : BookT :=
  [("e4,c6,d4,d5,Nd2", { name := "Caro-Kann Defense", variation := some "Advance Variation" }),
   ("e4,c6,d4,d5,e5", { name := "Caro-Kann Defense", variation := some "Advance Variation" }),
   ("e4,d5", { name := "Scandinavian Defense", moves := some [⟨"exd5", 100⟩] }),
   ("e4,d5,exd5", { name := "Scandinavian Defense",
                    moves := some [⟨"Qxd5", 60⟩, ⟨"Nf6", 40⟩] }),
   ("e4,d5,exd5,Qxd5", { name := "Scandinavian Defense", variation := some "Main Line",
                         moves := some [⟨"Nc3", 80⟩, ⟨"Nf3", 20⟩] }),
   ("e4,d5,exd5,Qxd5,Nc3", { name := "Scandinavian Defense", variation := some "Main Line" }),
   ("e4,d5,exd5,Nf6", { name := "Scandinavian Defense",
                        variation := some "Modern Variation" }),
   ("e4,d6", { name := "Pirc Defense",
               moves := some [⟨"d4", 80⟩, ⟨"Nc3", 15⟩, ⟨"Nf3", 5⟩] }),
   ("e4,d6,d4", { name := "Pirc Defense", moves := some [⟨"Nf6", 70⟩, ⟨"g6", 30⟩] }),
   ("e4,d6,d4,Nf6", { name := "Pirc Defense",
                      moves := some [⟨"Nc3", 70⟩, ⟨"Nf3", 20⟩, ⟨"f3", 10⟩] }),
   ("e4,d6,d4,Nf6,Nc3", { name := "Pirc Defense", variation := some "Classical" }),
   ("e4,d6,d4,Nf6,f3", { name := "Pirc Defense", variation := some "Austrian Attack" }),
   ("e4,d6,d4,g6", { name := "Modern Defense" }),
   ("d4", { name := "Queen's Pawn Opening",
            moves := some [⟨"d5", 45⟩, ⟨"Nf6", 40⟩, ⟨"e6", 10⟩, ⟨"f5", 5⟩] }),
   ("d4,d5", { name := "Queen's Pawn Game",
               moves := some [⟨"c4", 70⟩, ⟨"Nf3", 20⟩, ⟨"Bf4", 10⟩] })]

/-- `OPENING_BOOK` of constants.ts, part 5 of 7 (transcribed in full,
split only to keep elaboration linear). -/
def OPENING_BOOK_5 : BookT :=
  [("d4,d5,c4", { name := "Queen's Gambit",
                  moves := some [⟨"e6", 50⟩, ⟨"c6", 30⟩, ⟨"dxc4", 15⟩, ⟨"Nf6", 5⟩] }),
   ("d4,d5,c4,e6", { name := "Queen's Gambit", variation := some "Declined",
                     moves := some [⟨"Nc3", 60⟩, ⟨"Nf3", 40⟩] }),
   ("d4,d5,c4,e6,Nc3", { name := "Queen's Gambit Declined",
                         moves := some [⟨"Nf6", 80⟩, ⟨"Be7", 20⟩] }),
   ("d4,d5,c4,e6,Nc3,Nf6", { name := "Queen's Gambit Declined",
                             variation := some "Main Line" }),
   ("d4,d5,c4,c6", { name := "Slav Defense" }),
   ("d4,d5,c4,dxc4", { name := "Queen's Gambit", variation := some "Accepted" }),
   ("d4,d5,Nf3", { name := "London System / Colle System" }),
   ("d4,d5,Bf4", { name := "London System" }),
   ("d4,Nf6", { name := "Indian Defense",
                moves := some [⟨"c4", 70⟩, ⟨"Nf3", 20⟩, ⟨"Bg5", 10⟩] }),
   ("d4,Nf6,c4", { name := "Indian Game",
                   moves := some [⟨"g6", 40⟩, ⟨"e6", 35⟩, ⟨"e5", 15⟩, ⟨"c5", 10⟩] }),
   ("d4,Nf6,c4,g6", { name := "King's Indian Defense",
                      moves := some [⟨"Nc3", 70⟩, ⟨"Nf3", 30⟩] }),
   ("d4,Nf6,c4,g6,Nc3", { name := "King's Indian Defense",
                          moves := some [⟨"Bg7", 80⟩, ⟨"d5", 20⟩] }),
   ("d4,Nf6,c4,g6,Nc3,Bg7", { name := "King's Indian Defense",
                              moves := some [⟨"e4", 60⟩, ⟨"Nf3", 40⟩] }),
   ("d4,Nf6,c4,g6,Nc3,Bg7,e4", { name := "King's Indian Defense",
                                 variation := some "Classical" }),
   ("d4,Nf6,c4,g6,Nc3,d5", { name := "Grünfeld Defense" })]

/-- `OPENING_BOOK` of constants.ts, part 6 of 7 (transcribed in full,
split only to keep elaboration linear). -/
def OPENING_BOOK_6 : BookT :=
  [("d4,Nf6,c4,e6", { name := "Nimzo-Indian / Queen's Indian" }),
   ("d4,Nf6,c4,e5", { name := "Budapest Gambit" }),
   ("d4,Nf6,c4,c5", { name := "Benoni Defense" }),
   ("d4,Nf6,Bg5", { name := "Trompowsky Attack" }),
   ("d4,f5", { name := "Dutch Defense" }),
   ("c4", { name := "English Opening",
            moves := some [⟨"e5", 40⟩, ⟨"Nf6", 30⟩, ⟨"c5", 15⟩, ⟨"e6", 15⟩] }),
   ("c4,e5", { name := "English Opening", variation := some "Reversed Sicilian",
               moves := some [⟨"Nc3", 60⟩, ⟨"g3", 30⟩, ⟨"Nf3", 10⟩] }),
   ("c4,e5,Nc3", { name := "English Opening", variation := some "Reversed Sicilian",
                   moves := some [⟨"Nf6", 50⟩, ⟨"Nc6", 30⟩, ⟨"Bb4", 20⟩] }),
   ("c4,e5,Nc3,Nf6", { name := "English Opening", variation := some "Four Knights" }),
   ("c4,e5,Nc3,Nc6", { name := "English Opening", variation := some "Reversed Sicilian" }),
   ("c4,e5,Nc3,Bb4", { name := "English Opening", variation := some "Four Knights" }),
   ("c4,c5", { name := "English Opening", variation := some "Symmetrical" }),
   ("Nf3", { name := "Réti Opening",
             moves := some [⟨"d5", 40⟩, ⟨"Nf6", 35⟩, ⟨"c5", 15⟩, ⟨"g6", 10⟩] }),
   ("Nf3,d5", { name := "Réti Opening",
                moves := some [⟨"c4", 50⟩, ⟨"g3", 30⟩, ⟨"d4", 20⟩] }),
   ("Nf3,d5,c4", { name := "Réti Opening", variation := some "Réti Gambit" })]

/-- `OPENING_BOOK` of constants.ts, part 7 of 7 (transcribed in full,
split only to keep elaboration linear). -/
def OPENING_BOOK_7 : BookT :=
  [("Nf3,d5,g3", { name := "King's Indian Attack" })]

/-- `OPENING_BOOK` of constants.ts: the concatenation of its parts, in
source order. -/
def OPENING_BOOK : BookT :=
  OPENING_BOOK_1 ++ OPENING_BOOK_2 ++ OPENING_BOOK_3 ++ OPENING_BOOK_4 ++ OPENING_BOOK_5 ++ OPENING_BOOK_6 ++ OPENING_BOOK_7

/-- `isInBook` over an arbitrary table: `!!OPENING_BOOK[key]?.moves` — note
this is JavaScript truthiness of the array itself, true even for an empty
array. -/
def isInBookT (book : BookT) (hist : List String) : Bool :=
  match bookLookup book (historyKey hist) with
  | some e => e.moves.isSome
  | none => false

/-- `shouldUseBook` over an arbitrary table:
`chess.history().length < maxDepth && isInBook(chess)`. -/
def shouldUseBookT (book : BookT) (hist : List String) (maxDepth : ℕ) : Bool :=
  decide (hist.length < maxDepth) && isInBookT book hist

/-- `isInBook` of constants.ts (specialized to `OPENING_BOOK`). -/
def isInBook {Pos Move : Type} (g : Game Pos Move) (pos : Pos) : Bool :=
  isInBookT OPENING_BOOK (g.history pos)

/-- `shouldUseBook` of constants.ts (specialized to `OPENING_BOOK`). -/
def shouldUseBook {Pos Move : Type} (g : Game Pos Move) (pos : Pos) (maxDepth : ℕ) : Bool :=
  shouldUseBookT OPENING_BOOK (g.history pos) maxDepth

/-- The subtraction loop of `getBookMove`: subtract each candidate's weight
from the running remainder, returning the first candidate at which the
remainder drops to `≤ 0`. -/
def bookLoop : List OpeningMove → ℚ → Option String
  | [], _ => none
  | m :: rest, r =>
      let r1 := r - m.weight
      if r1 ≤ 0 then some m.move else bookLoop rest r1

/-- `entry.moves.reduce((s, m) => s + m.weight, 0)`. -/
def totalWeight (ms : List OpeningMove) : ℚ := ms.foldl (fun s m => s + m.weight) 0

/-- `getBookMove` over an arbitrary table, with the `Math.random()` draw `u`
passed explicitly (`r = u * total`).  Returns `none` when the key is absent
or `entry?.moves?.length` is falsy; the final `entry.moves[0].move` mirrors
the source's fallback return after the loop. -/
def getBookMoveT (book : BookT) (hist : List String) (u : ℚ) : Option String :=
  match bookLookup book (historyKey hist) with
  | none => none
  | some entry =>
      match entry.moves with
      | none => none
      | some ms =>
          if ms.length = 0 then none
          else
            let r := u * totalWeight ms
            match bookLoop ms r with
            | some mv => some mv
            | none => some ((ms.headD ⟨"", 0⟩).move)

/-- `getBookMove` of constants.ts (specialized to `OPENING_BOOK`). -/
def getBookMove {Pos Move : Type} (g : Game Pos Move) (pos : Pos) (u : ℚ) : Option String :=
  getBookMoveT OPENING_BOOK (g.history pos) u

/-- Whether `getBookMove` reaches its `Math.random()` call (the key is
present with a non-empty move list); used to thread the random cursor. -/
def bookDraws (book : BookT) (hist : List String) : Bool :=
  match bookLookup book (historyKey hist) with
  | some e =>
      match e.moves with
      | some ms => decide (0 < ms.length)
      | none => false
  | none => false

/-!
## Transposition cache (`ChessBot.tt`, a JavaScript `Map`)
-/

/-- A cache entry (`{ score, depth, move }` in chess-bot.ts). -/
structure TTEntry (Move : Type) : Type where
  score : XQ
  depth : ℕ
  move : Option Move
deriving DecidableEq

/-- The cache: a JavaScript `Map` modelled as an insertion-ordered
association list with distinct keys. -/
abbrev TT (Move : Type) : Type := List (String × TTEntry Move)

/-- `Map.get`. -/
def ttGet {Move : Type} : TT Move → String → Option (TTEntry Move)
  | [], _ => none
  | (k, e) :: rest, key => if k = key then some e else ttGet rest key

/-- `Map.set`: update in place (keeping insertion order) or append. -/
def ttSet {Move : Type} : TT Move → String → TTEntry Move → TT Move
  | [], key, v => [(key, v)]
  | (k, e) :: rest, key, v =>
      if k = key then (k, v) :: rest else (k, e) :: ttSet rest key v

/-- `MAX_CACHE_SIZE` of the variant bot file (and the literal `50000` in
chess-bot.ts). -/
def MAX_CACHE_SIZE : ℕ := 50000

/-- `ChessBot.pruneCache` of the variant bot file (src/unnamed/part_010):
when the size exceeds the cap, delete the first
`size - Math.floor(MAX_CACHE_SIZE * 0.7)` keys in iteration (= insertion)
order. -/
def pruneCache {Move : Type} (tt : TT Move) : TT Move :=
  if MAX_CACHE_SIZE < tt.length then tt.drop (tt.length - MAX_CACHE_SIZE * 7 / 10)
  else tt

/-!
## Move ordering (`ChessBot.orderMoves`)
-/

/-- `PIECE_VAL` of chess-bot.ts (`{ p: 1, n: 3, b: 3, r: 5, q: 9 }`; a king
index would be `undefined` in JavaScript — modelled as 0, it can only arise
for a capturing king's own piece value). -/
def PIECE_VAL : Psym → ℚ
  | Psym.p => 1
  | Psym.n => 3
  | Psym.b => 3
  | Psym.r => 5
  | Psym.q => 9
  | Psym.k => 0

/-- `CENTER` of chess-bot.ts. -/
def CENTER : List String := ["d4", "d5", "e4", "e5", "c4", "c5", "f4", "f5"]

/-- The comparator key of `ChessBot.orderMoves`. -/
def moveOrderScore {Pos Move : Type} (g : Game Pos Move) (m : Move) : ℚ :=
  (match g.mCaptured m with
   | some c => PIECE_VAL c * 10 - PIECE_VAL (g.mPiece m)
   | none => 0) +
  (if g.mTo m ∈ CENTER then 2 else 0)

/-- Insert into a descending-sorted list, after all entries with an equal or
larger key (preserving original relative order of equals). -/
def insertDesc {Move : Type} (score : Move → ℚ) (a : Move) : List Move → List Move
  | [] => [a]
  | b :: rest => if score b < score a then a :: b :: rest else b :: insertDesc score a rest

/-- `ChessBot.orderMoves`: a stable descending sort by `moveOrderScore`
(`Array.prototype.sort` is stable; any stable sort computes the same list,
here an insertion sort). -/
def orderMoves {Move : Type} (score : Move → ℚ) (ms : List Move) : List Move :=
  ms.foldl (fun acc m => insertDesc score m acc) []

/-!
## The search (`ChessBot.minimax`, `ChessBot.getBestMove`)
-/

/-- Bot configuration (`BotConfig` of chess-bot.ts). -/
structure BotConfig : Type where
  searchDepth : ℕ
  useOpeningBook : Bool
  openingBookDepth : ℕ
  randomizationEnabled : Bool
  evaluationNoise : ℚ
deriving DecidableEq, Repr

/-- `DEFAULT_CONFIG` of chess-bot.ts. -/
def DEFAULT_CONFIG : BotConfig :=
  { searchDepth := 3, useOpeningBook := true, openingBookDepth := 10,
    randomizationEnabled := true, evaluationNoise := 1/10 }

/-- Result and threaded state of one `minimax` call: the returned
`{ move, score }` plus the position, cache and random-stream cursor after
the call. -/
structure SearchOut (Pos Move : Type) : Type where
  move : Option Move
  score : XQ
  pos : Pos
  tt : TT Move
  rng : ℕ

/-- The base case of `minimax` (`depth === 0 || chess.isGameOver()`):
evaluate, optionally adding `(Math.random() - 0.5) * evaluationNoise * 2`. -/
def mmLeaf {Pos Move : Type} (g : Game Pos Move) (cfg : BotConfig) (stream : ℕ → ℚ)
    (col : Col) (pos : Pos) (tt : TT Move) (rng : ℕ) : SearchOut Pos Move :=
  let score := evaluate g pos col
  if cfg.randomizationEnabled then
    { move := none, score := qf (score + (stream rng - 1/2) * cfg.evaluationNoise * 2),
      pos := pos, tt := tt, rng := rng + 1 }
  else
    { move := none, score := qf score, pos := pos, tt := tt, rng := rng }

/-- The maximizing move loop of `minimax`: apply, recurse, undo, track the
strict maximum and its move, raise `alpha`, break on `beta ≤ alpha`. -/
def mmMaxFold {Pos Move : Type} (g : Game Pos Move)
    (recurse : Pos → XQ → XQ → TT Move → ℕ → SearchOut Pos Move) (beta : XQ) :
    List Move → Pos → XQ → TT Move → ℕ → XQ → Option Move → SearchOut Pos Move
  | [], pos, _, tt, rng, maxEval, bestMove =>
      { move := bestMove, score := maxEval, pos := pos, tt := tt, rng := rng }
  | m :: rest, pos, alpha, tt, rng, maxEval, bestMove =>
      let r := recurse (g.makeMove pos m) alpha beta tt rng
      let pos1 := g.undo r.pos
      let maxEval1 := if maxEval < r.score then r.score else maxEval
      let bestMove1 := if maxEval < r.score then some m else bestMove
      let alpha1 := max alpha r.score
      if beta ≤ alpha1 then
        { move := bestMove1, score := maxEval1, pos := pos1, tt := r.tt, rng := r.rng }
      else mmMaxFold g recurse beta rest pos1 alpha1 r.tt r.rng maxEval1 bestMove1

/-- The minimizing move loop of `minimax` (symmetric). -/
def mmMinFold {Pos Move : Type} (g : Game Pos Move)
    (recurse : Pos → XQ → XQ → TT Move → ℕ → SearchOut Pos Move) (alpha : XQ) :
    List Move → Pos → XQ → TT Move → ℕ → XQ → Option Move → SearchOut Pos Move
  | [], pos, _, tt, rng, minEval, bestMove =>
      { move := bestMove, score := minEval, pos := pos, tt := tt, rng := rng }
  | m :: rest, pos, beta, tt, rng, minEval, bestMove =>
      let r := recurse (g.makeMove pos m) alpha beta tt rng
      let pos1 := g.undo r.pos
      let minEval1 := if r.score < minEval then r.score else minEval
      let bestMove1 := if r.score < minEval then some m else bestMove
      let beta1 := min beta r.score
      if beta1 ≤ alpha then
        { move := bestMove1, score := minEval1, pos := pos1, tt := r.tt, rng := r.rng }
      else mmMinFold g recurse alpha rest pos1 beta1 r.tt r.rng minEval1 bestMove1

/-- `ChessBot.minimax` of chess-bot.ts: cache probe keyed by
`chess.fen() + depth` trusted when the stored depth is at least the
requested depth; leaf evaluation at depth 0 or game over; otherwise the
ordered move loop with alpha-beta, then store the result under the key and
clear the whole cache when its size exceeds 50000 (`this.tt.clear()`). -/
def mm {Pos Move : Type} (g : Game Pos Move) (cfg : BotConfig) (stream : ℕ → ℚ) (col : Col) :
    ℕ → Pos → XQ → XQ → Bool → TT Move → ℕ → SearchOut Pos Move
  | depth, pos, alpha, beta, maxP, tt, rng =>
    let key := g.fen pos ++ toString depth
    let body : Unit → SearchOut Pos Move := fun _ =>
      match depth with
      | 0 => mmLeaf g cfg stream col pos tt rng
      | d + 1 =>
        if g.isGameOver pos then mmLeaf g cfg stream col pos tt rng
        else
          let ms := orderMoves (moveOrderScore g) (g.moves pos)
          if maxP then
            let r := mmMaxFold g (fun p a b t i => mm g cfg stream col d p a b false t i)
              beta ms pos alpha tt rng ⊥ none
            let tt1 := ttSet r.tt key { score := r.score, depth := d + 1, move := r.move }
            let tt2 := if MAX_CACHE_SIZE < tt1.length then [] else tt1
            { move := r.move, score := r.score, pos := r.pos, tt := tt2, rng := r.rng }
          else
            let r := mmMinFold g (fun p a b t i => mm g cfg stream col d p a b true t i)
              alpha ms pos beta tt rng ⊤ none
            let tt1 := ttSet r.tt key { score := r.score, depth := d + 1, move := r.move }
            let tt2 := if MAX_CACHE_SIZE < tt1.length then [] else tt1
            { move := r.move, score := r.score, pos := r.pos, tt := tt2, rng := r.rng }
    match ttGet tt key with
    | some cached =>
        if depth ≤ cached.depth then
          { move := cached.move, score := cached.score, pos := pos, tt := tt, rng := rng }
        else body ()
    | none => body ()

/-- Result and threaded state of one `getBestMove` call. -/
structure BotOut (Pos Move : Type) : Type where
  move : Option Move
  pos : Pos
  tt : TT Move
  rng : ℕ

/-- `ChessBot.getBestMove` of chess-bot.ts.  The bot imports its book from
`./opening-book`, a repository module not present under src/; its
`shouldUseBook` / `getBookMove` are modelled from the spec §4.3 (they
coincide with the solidjs copy in constants.ts) over a table parameter
`book`.  A book hit is translated to a concrete move by matching SAN over
the legal moves on a scratch copy (`g.san`); otherwise fall through to
`minimax` at the configured depth with a full window. -/
def getBestMove {Pos Move : Type} (g : Game Pos Move) (book : BookT) (cfg : BotConfig)
    (stream : ℕ → ℚ) (pos : Pos) (tt : TT Move) (rng : ℕ) : BotOut Pos Move :=
  let consult := cfg.useOpeningBook && shouldUseBookT book (g.history pos) cfg.openingBookDepth
  let bookMove : Option String :=
    if consult then getBookMoveT book (g.history pos) (stream rng) else none
  let rng1 := if consult && bookDraws book (g.history pos) then rng + 1 else rng
  let search : Unit → BotOut Pos Move := fun _ =>
    let r := mm g cfg stream (g.turn pos) cfg.searchDepth pos ⊥ ⊤ true tt rng1
    { move := r.move, pos := r.pos, tt := r.tt, rng := r.rng }
  match bookMove with
  | some bmv =>
      match (g.moves pos).find? (fun m => g.san pos m == some bmv) with
      | some mv => { move := some mv, pos := pos, tt := tt, rng := rng1 }
      | none => search ()
  | none => search ()

end Chess

namespace Chess

/-!
## Claim C6: cache eviction (`ChessBot.pruneCache`)
-/

/-- C6: when an insertion pushes the cache one past its maximum size
(50000), `pruneCache` evicts exactly the 15001 oldest-inserted entries
(roughly 30%), keeping the remaining suffix intact, with the resulting size
35000 back under the threshold. -/
theorem pruneCache_overflow {Move : Type} (tt : TT Move)
    (h : tt.length = MAX_CACHE_SIZE + 1) :
    pruneCache tt = tt.drop 15001 ∧ (pruneCache tt).length = 35000 ∧
      (pruneCache tt).length ≤ MAX_CACHE_SIZE ∧ ∀ e ∈ pruneCache tt, e ∈ tt := by
  have hgt : MAX_CACHE_SIZE < tt.length := by
    rw [h]
    exact Nat.lt_succ_self _
  have hdropn : tt.length - MAX_CACHE_SIZE * 7 / 10 = 15001 := by
    rw [h]
    rfl
  have heq : pruneCache tt = tt.drop 15001 := by
    unfold pruneCache
    rw [if_pos hgt, hdropn]
  refine ⟨heq, ?_, ?_, ?_⟩
  · rw [heq, List.length_drop, h]
    rfl
  · rw [heq, List.length_drop, h]
    decide
  · intro e he
    rw [heq] at he
    exact List.drop_subset _ _ he

/-- Witness for C6 on a concrete overflowing cache. -/
theorem pruneCache_overflow_witness :
    (List.replicate 50001 (("k", ⟨qf 0, 0, none⟩) : String × TTEntry ℕ)).length =
        MAX_CACHE_SIZE + 1 ∧
      pruneCache (List.replicate 50001 (("k", ⟨qf 0, 0, none⟩) : String × TTEntry ℕ)) =
        (List.replicate 50001 (("k", ⟨qf 0, 0, none⟩) : String × TTEntry ℕ)).drop 15001 := by
  have h : (List.replicate 50001 (("k", ⟨qf 0, 0, none⟩) : String × TTEntry ℕ)).length =
      MAX_CACHE_SIZE + 1 := by
    rw [List.length_replicate]
    rfl
  exact ⟨h, (pruneCache_overflow _ h).1⟩

/-!
## Claim C9: book eligibility (`shouldUseBook`)
-/

/-- A looked-up entry is an entry of the table. -/
theorem bookLookup_mem {book : BookT} {key : String} {e : OpeningBookEntry}
    (h : bookLookup book key = some e) : (key, e) ∈ book := by
  induction book with
  | nil => simp [bookLookup] at h
  | cons hd rest ih =>
      obtain ⟨k1, e1⟩ := hd
      rw [bookLookup] at h
      by_cases hk : k1 = key
      · rw [if_pos hk] at h
        subst hk
        injection h with h2
        subst h2
        exact List.mem_cons_self _ _
      · rw [if_neg hk] at h
        exact List.mem_cons_of_mem _ (ih h)

/-- Every entry of `OPENING_BOOK` that carries a `moves` field carries a
non-empty one (checked over the whole table). -/
theorem OPENING_BOOK_moves_ne_nil :
    ∀ pe ∈ OPENING_BOOK, ∀ ms, pe.2.moves = some ms → ms ≠ [] := by
  have hall : OPENING_BOOK.all
      (fun pe =>
        match pe.2.moves with
        | some ms => !ms.isEmpty
        | none => true) = true := by
    with_unfolding_all decide
  intro pe hpe ms hms hnil
  have h2 := List.all_eq_true.mp hall pe hpe
  rw [hms, hnil] at h2
  simp at h2

/-- C9: `shouldUseBook` is true exactly when the number of played moves is
strictly below `maxPly` and the joined history key is in `OPENING_BOOK` with
a non-empty candidate list; in particular it is false as soon as the move
count reaches `maxPly`, whatever the table contains. -/
theorem shouldUseBook_iff {Pos Move : Type} (g : Game Pos Move) (pos : Pos) (maxPly : ℕ) :
    shouldUseBook g pos maxPly = true ↔
      ((g.history pos).length < maxPly ∧
        ∃ e ms, bookLookup OPENING_BOOK (historyKey (g.history pos)) = some e ∧
          e.moves = some ms ∧ ms ≠ []) := by
  unfold shouldUseBook shouldUseBookT isInBookT
  rw [Bool.and_eq_true, decide_eq_true_iff]
  constructor
  · rintro ⟨hlen, hbk⟩
    refine ⟨hlen, ?_⟩
    cases hlk : bookLookup OPENING_BOOK (historyKey (g.history pos)) with
    | none => rw [hlk] at hbk; simp at hbk
    | some e =>
        rw [hlk] at hbk
        have hbk2 : e.moves.isSome = true := hbk
        cases hms : e.moves with
        | none => rw [hms] at hbk2; simp at hbk2
        | some ms =>
            exact ⟨e, ms, rfl, hms,
              OPENING_BOOK_moves_ne_nil _ (bookLookup_mem hlk) ms hms⟩
  · rintro ⟨hlen, e, ms, hlk, hms, -⟩
    refine ⟨hlen, ?_⟩
    rw [hlk]
    show e.moves.isSome = true
    rw [hms]
    rfl

end Chess


namespace Chess

/-!
## Claim C10: weighted book selection (`getBookMove`)
-/

/-- Sum of the first `k` candidate weights. -/
def prefixWeight (ms : List OpeningMove) (k : ℕ) : ℚ := totalWeight (ms.take k)

theorem foldl_weight_shift :
    ∀ (l : List OpeningMove) (a : ℚ), l.foldl (fun s m => s + m.weight) a = a + totalWeight l := by
  intro l
  induction l with
  | nil => intro a; simp [totalWeight]
  | cons m rest ih =>
      intro a
      rw [totalWeight, List.foldl_cons, List.foldl_cons, ih, ih]
      ring

theorem totalWeight_cons (m : OpeningMove) (l : List OpeningMove) :
    totalWeight (m :: l) = m.weight + totalWeight l := by
  rw [totalWeight, List.foldl_cons, foldl_weight_shift]
  ring

theorem totalWeight_nonneg {ms : List OpeningMove} (h : ∀ m ∈ ms, 0 ≤ m.weight) :
    0 ≤ totalWeight ms := by
  induction ms with
  | nil => simp [totalWeight]
  | cons m rest ih =>
      rw [totalWeight_cons]
      have h1 := h m (List.mem_cons_self _ _)
      have h2 := ih fun x hx => h x (List.mem_cons_of_mem _ hx)
      linarith

/-- Every weight in `OPENING_BOOK` is non-negative (checked over the whole
table). -/
theorem OPENING_BOOK_weights_nonneg :
    ∀ pe ∈ OPENING_BOOK, ∀ ms, pe.2.moves = some ms → ∀ m ∈ ms, 0 ≤ m.weight := by
  have hall : OPENING_BOOK.all
      (fun pe =>
        match pe.2.moves with
        | some ms => ms.all (fun m => decide (0 ≤ m.weight))
        | none => true) = true := by
    with_unfolding_all decide
  intro pe hpe ms hms m hm
  have h2 := List.all_eq_true.mp hall pe hpe
  rw [hms] at h2
  have h3 := List.all_eq_true.mp h2 m hm
  exact of_decide_eq_true h3

/-- The subtraction loop returns the first candidate at which the remainder
drops to `≤ 0`. -/
theorem bookLoop_first :
    ∀ (ms : List OpeningMove) (r : ℚ) (i : ℕ) (h : i < ms.length),
      r - prefixWeight ms (i + 1) ≤ 0 →
      (∀ j, j < i → ¬(r - prefixWeight ms (j + 1) ≤ 0)) →
      bookLoop ms r = some (ms.get ⟨i, h⟩).move := by
  intro ms
  induction ms with
  | nil =>
      intro r i h
      exact absurd h (by simp)
  | cons m rest ih =>
      intro r i h hle hmin
      have hpw1 : prefixWeight (m :: rest) 1 = m.weight := by
        simp [prefixWeight, totalWeight]
      cases i with
      | zero =>
          rw [hpw1] at hle
          rw [bookLoop]
          simp only [hle, if_pos]
          rfl
      | succ j =>
          have h0 : ¬(r - m.weight ≤ 0) := by
            have := hmin 0 (Nat.succ_pos j)
            rw [hpw1] at this
            exact this
          rw [bookLoop]
          simp only [h0, if_neg, not_false_iff]
          have hstep : ∀ k : ℕ, r - m.weight - prefixWeight rest (k + 1) =
              r - prefixWeight (m :: rest) (k + 2) := by
            intro k
            have hk : prefixWeight (m :: rest) (k + 2) = m.weight + prefixWeight rest (k + 1) := by
              rw [prefixWeight, prefixWeight, List.take_succ_cons, totalWeight_cons]
            rw [hk]
            ring
          have hj : j < rest.length := by
            simpa [Nat.succ_lt_succ_iff] using h
          have hle2 : r - m.weight - prefixWeight rest (j + 1) ≤ 0 := by
            rw [hstep j]
            exact hle
          have hmin2 : ∀ j2, j2 < j → ¬(r - m.weight - prefixWeight rest (j2 + 1) ≤ 0) := by
            intro j2 hj2
            rw [hstep j2]
            exact hmin (j2 + 1) (Nat.succ_lt_succ hj2)
          exact ih (r - m.weight) j hj hle2 hmin2

/-- C10: `getBookMove` returns none exactly when the history key is absent
or carries no candidate list (or an empty one); otherwise, for a uniform
draw `u ∈ [0,1)` (so a raw value `u * totalWeight` in `[0, totalWeight)`),
it returns the first candidate, in list order, at which the running
remainder after subtracting each weight drops to `≤ 0` — in particular a
member of the entry's candidate list. -/
theorem getBookMove_spec {Pos Move : Type} (g : Game Pos Move) (pos : Pos) (u : ℚ)
    (hu0 : 0 ≤ u) (hu1 : u < 1) :
    (getBookMove g pos u = none ↔
      bookLookup OPENING_BOOK (historyKey (g.history pos)) = none ∨
        ∃ e, bookLookup OPENING_BOOK (historyKey (g.history pos)) = some e ∧
          (e.moves = none ∨ e.moves = some [])) ∧
    (∀ e ms, bookLookup OPENING_BOOK (historyKey (g.history pos)) = some e →
      e.moves = some ms → ms ≠ [] →
      ∃ i, ∃ h : i < ms.length,
        getBookMove g pos u = some (ms.get ⟨i, h⟩).move ∧
          u * totalWeight ms - prefixWeight ms (i + 1) ≤ 0 ∧
          ∀ j, j < i → ¬(u * totalWeight ms - prefixWeight ms (j + 1) ≤ 0)) := by
  constructor
  · cases hlk : bookLookup OPENING_BOOK (historyKey (g.history pos)) with
    | none =>
        simp only [getBookMove, getBookMoveT, hlk]
        simp
    | some e =>
        cases hms : e.moves with
        | none =>
            simp only [getBookMove, getBookMoveT, hlk, hms]
            exact ⟨fun _ => Or.inr ⟨e, rfl, Or.inl hms⟩, fun _ => trivial⟩
        | some ms =>
            cases ms with
            | nil =>
                simp only [getBookMove, getBookMoveT, hlk, hms]
                exact ⟨fun _ => Or.inr ⟨e, rfl, Or.inr hms⟩, fun _ => rfl⟩
            | cons m rest =>
                simp only [getBookMove, getBookMoveT, hlk, hms]
                constructor
                · intro hnone
                  exfalso
                  have hnone2 : (match bookLoop (m :: rest) (u * totalWeight (m :: rest)) with
                      | some mv => some mv
                      | none => some ((m :: rest).headD ⟨"", 0⟩).move) = (none : Option String) :=
                    hnone
                  cases hb2 : bookLoop (m :: rest) (u * totalWeight (m :: rest)) with
                  | none => rw [hb2] at hnone2; simp at hnone2
                  | some mv => rw [hb2] at hnone2; simp at hnone2
                · rintro (hcontra | ⟨e2, he2, hmv⟩)
                  · exact absurd hcontra (by simp)
                  · injection he2 with he3
                    subst he3
                    rcases hmv with hx | hx <;> rw [hms] at hx <;> simp at hx
  · intro e ms hlk hms hne
    have hnn : ∀ m ∈ ms, 0 ≤ m.weight :=
      OPENING_BOOK_weights_nonneg _ (bookLookup_mem hlk) ms hms
    have htot : 0 ≤ totalWeight ms := totalWeight_nonneg hnn
    have hlen : 0 < ms.length := List.length_pos.mpr hne
    have hP : u * totalWeight ms - prefixWeight ms ((ms.length - 1) + 1) ≤ 0 := by
      have hlast : prefixWeight ms ((ms.length - 1) + 1) = totalWeight ms := by
        rw [prefixWeight, Nat.sub_add_cancel hlen, List.take_length]
      rw [hlast]
      nlinarith [mul_nonneg (by linarith : (0 : ℚ) ≤ 1 - u) htot]
    have hex : ∃ k, u * totalWeight ms - prefixWeight ms (k + 1) ≤ 0 := ⟨ms.length - 1, hP⟩
    have hifind : Nat.find hex < ms.length :=
      lt_of_le_of_lt (Nat.find_min' hex hP) (Nat.sub_lt hlen Nat.one_pos)
    refine ⟨Nat.find hex, hifind, ?_, Nat.find_spec hex, fun j hj => Nat.find_min hex hj⟩
    have hloop := bookLoop_first ms (u * totalWeight ms) (Nat.find hex) hifind
      (Nat.find_spec hex) (fun j hj => Nat.find_min hex hj)
    simp only [getBookMove, getBookMoveT, hlk, hms]
    rw [if_neg (by simpa using Nat.pos_iff_ne_zero.mp hlen), hloop]

end Chess

namespace Chess

/-- A minimal rules-engine instance at the starting position (empty history,
lawful `undo`), used by book-related witnesses. -/
def gBookW : Game (List ℕ) ℕ :=
  { turn := fun _ => Col.w
    fen := fun _ => "f"
    moves := fun _ => [0]
    makeMove := fun p m => m :: p
    undo := fun p => p.tail
    isGameOver := fun _ => false
    isCheckmate := fun _ => false
    isStalemate := fun _ => false
    isThreefoldRepetition := fun _ => false
    isInsufficientMaterial := fun _ => false
    isDraw := fun _ => false
    board := fun _ => emptyBoard
    movesNullSwitched := fun _ => 0
    history := fun _ => []
    san := fun _ _ => none
    mCaptured := fun _ => none
    mPiece := fun _ => Psym.p
    mTo := fun _ => "z" }

/-- Witness for C10 at the starting-position history and the draw 1/2. -/
theorem getBookMove_spec_witness :
    (0 : ℚ) ≤ 1/2 ∧ (1/2 : ℚ) < 1 ∧
      ((getBookMove gBookW [] (1/2) = none ↔
        bookLookup OPENING_BOOK (historyKey (gBookW.history [])) = none ∨
          ∃ e, bookLookup OPENING_BOOK (historyKey (gBookW.history [])) = some e ∧
            (e.moves = none ∨ e.moves = some [])) ∧
      (∀ e ms, bookLookup OPENING_BOOK (historyKey (gBookW.history [])) = some e →
        e.moves = some ms → ms ≠ [] →
        ∃ i, ∃ h : i < ms.length,
          getBookMove gBookW [] (1/2) = some (ms.get ⟨i, h⟩).move ∧
            (1/2 : ℚ) * totalWeight ms - prefixWeight ms (i + 1) ≤ 0 ∧
            ∀ j, j < i → ¬((1/2 : ℚ) * totalWeight ms - prefixWeight ms (j + 1) ≤ 0))) :=
  ⟨by norm_num, by norm_num, getBookMove_spec gBookW [] (1/2) (by norm_num) (by norm_num)⟩

/-!
## Dispatch lemmas for `mm`
-/

/-- The cache probe of `minimax` (source lines 58-60): the entry under the
key `fen + depth`, accepted only when its stored depth is at least the
requested depth. -/
def ttProbe {Pos Move : Type} (g : Game Pos Move) (pos : Pos) (d : ℕ) (tt : TT Move) :
    Option (TTEntry Move) :=
  match ttGet tt (g.fen pos ++ toString d) with
  | some cached => if d ≤ cached.depth then some cached else none
  | none => none

theorem mm_probe_some {Pos Move : Type} {g : Game Pos Move} {cfg : BotConfig}
    {stream : ℕ → ℚ} {col : Col} {d : ℕ} {pos : Pos} {alpha beta : XQ} {maxP : Bool}
    {tt : TT Move} {rng : ℕ} {c : TTEntry Move} (h : ttProbe g pos d tt = some c) :
    mm g cfg stream col d pos alpha beta maxP tt rng =
      { move := c.move, score := c.score, pos := pos, tt := tt, rng := rng } := by
  unfold ttProbe at h
  rw [mm.eq_def]
  cases hg : ttGet tt (g.fen pos ++ toString d) with
  | none =>
      simp only [hg] at h
      exact Option.noConfusion h
  | some cached =>
      simp only [hg] at h ⊢
      by_cases hd : d ≤ cached.depth
      · rw [if_pos hd] at h
        injection h with h2
        subst h2
        rw [if_pos hd]
      · rw [if_neg hd] at h
        exact absurd h (by simp)

theorem mm_probe_none_zero {Pos Move : Type} {g : Game Pos Move} {cfg : BotConfig}
    {stream : ℕ → ℚ} {col : Col} {pos : Pos} {alpha beta : XQ} {maxP : Bool}
    {tt : TT Move} {rng : ℕ} (h : ttProbe g pos 0 tt = none) :
    mm g cfg stream col 0 pos alpha beta maxP tt rng = mmLeaf g cfg stream col pos tt rng := by
  unfold ttProbe at h
  rw [mm.eq_def]
  cases hg : ttGet tt (g.fen pos ++ toString 0) with
  | none =>
      simp only [hg]
  | some cached =>
      simp only [hg] at h
      rw [if_pos (Nat.zero_le _)] at h
      exact absurd h (by simp)

theorem mm_probe_none_over {Pos Move : Type} {g : Game Pos Move} {cfg : BotConfig}
    {stream : ℕ → ℚ} {col : Col} {d : ℕ} {pos : Pos} {alpha beta : XQ} {maxP : Bool}
    {tt : TT Move} {rng : ℕ} (h : ttProbe g pos (d + 1) tt = none)
    (hover : g.isGameOver pos = true) :
    mm g cfg stream col (d + 1) pos alpha beta maxP tt rng =
      mmLeaf g cfg stream col pos tt rng := by
  unfold ttProbe at h
  rw [mm.eq_def]
  cases hg : ttGet tt (g.fen pos ++ toString (d + 1)) with
  | none => simp [hg, hover]
  | some cached =>
      simp only [hg] at h ⊢
      by_cases hd : d + 1 ≤ cached.depth
      · rw [if_pos hd] at h
        exact absurd h (by simp)
      · rw [if_neg hd]
        simp [hover]

theorem mm_probe_none_max {Pos Move : Type} {g : Game Pos Move} {cfg : BotConfig}
    {stream : ℕ → ℚ} {col : Col} {d : ℕ} {pos : Pos} {alpha beta : XQ}
    {tt : TT Move} {rng : ℕ} (h : ttProbe g pos (d + 1) tt = none)
    (hover : g.isGameOver pos = false) :
    mm g cfg stream col (d + 1) pos alpha beta true tt rng =
      (let r := mmMaxFold g (fun p a b t i => mm g cfg stream col d p a b false t i)
        beta (orderMoves (moveOrderScore g) (g.moves pos)) pos alpha tt rng ⊥ none
       let tt1 := ttSet r.tt (g.fen pos ++ toString (d + 1))
         { score := r.score, depth := d + 1, move := r.move }
       let tt2 := if MAX_CACHE_SIZE < tt1.length then [] else tt1
       { move := r.move, score := r.score, pos := r.pos, tt := tt2, rng := r.rng }) := by
  unfold ttProbe at h
  rw [mm.eq_def]
  cases hg : ttGet tt (g.fen pos ++ toString (d + 1)) with
  | none => simp [hg, hover]
  | some cached =>
      simp only [hg] at h ⊢
      by_cases hd : d + 1 ≤ cached.depth
      · rw [if_pos hd] at h
        exact absurd h (by simp)
      · rw [if_neg hd]
        simp [hover]

theorem mm_probe_none_min {Pos Move : Type} {g : Game Pos Move} {cfg : BotConfig}
    {stream : ℕ → ℚ} {col : Col} {d : ℕ} {pos : Pos} {alpha beta : XQ}
    {tt : TT Move} {rng : ℕ} (h : ttProbe g pos (d + 1) tt = none)
    (hover : g.isGameOver pos = false) :
    mm g cfg stream col (d + 1) pos alpha beta false tt rng =
      (let r := mmMinFold g (fun p a b t i => mm g cfg stream col d p a b true t i)
        alpha (orderMoves (moveOrderScore g) (g.moves pos)) pos beta tt rng ⊤ none
       let tt1 := ttSet r.tt (g.fen pos ++ toString (d + 1))
         { score := r.score, depth := d + 1, move := r.move }
       let tt2 := if MAX_CACHE_SIZE < tt1.length then [] else tt1
       { move := r.move, score := r.score, pos := r.pos, tt := tt2, rng := r.rng }) := by
  unfold ttProbe at h
  rw [mm.eq_def]
  cases hg : ttGet tt (g.fen pos ++ toString (d + 1)) with
  | none => simp [hg, hover]
  | some cached =>
      simp only [hg] at h ⊢
      by_cases hd : d + 1 ≤ cached.depth
      · rw [if_pos hd] at h
        exact absurd h (by simp)
      · rw [if_neg hd]
        simp [hover]

end Chess

namespace Chess

/-!
## Claim C3: the search never leaves the position changed
-/

theorem mmLeaf_pos {Pos Move : Type} (g : Game Pos Move) (cfg : BotConfig) (stream : ℕ → ℚ)
    (col : Col) (pos : Pos) (tt : TT Move) (rng : ℕ) :
    (mmLeaf g cfg stream col pos tt rng).pos = pos := by
  unfold mmLeaf
  split <;> rfl

theorem mmMaxFold_pos {Pos Move : Type} (g : Game Pos Move)
    (recurse : Pos → XQ → XQ → TT Move → ℕ → SearchOut Pos Move)
    (hrec : ∀ p a b t i, (recurse p a b t i).pos = p)
    (hundo : ∀ p m, g.undo (g.makeMove p m) = p) (beta : XQ) :
    ∀ (ms : List Move) (pos : Pos) (alpha : XQ) (tt : TT Move) (rng : ℕ) (acc : XQ)
      (bm : Option Move), (mmMaxFold g recurse beta ms pos alpha tt rng acc bm).pos = pos := by
  intro ms
  induction ms with
  | nil => intro pos alpha tt rng acc bm; rfl
  | cons m rest ih =>
      intro pos alpha tt rng acc bm
      simp only [mmMaxFold]
      split
      · simp only [hrec]
        exact hundo pos m
      · rw [ih]
        simp only [hrec]
        exact hundo pos m

theorem mmMinFold_pos {Pos Move : Type} (g : Game Pos Move)
    (recurse : Pos → XQ → XQ → TT Move → ℕ → SearchOut Pos Move)
    (hrec : ∀ p a b t i, (recurse p a b t i).pos = p)
    (hundo : ∀ p m, g.undo (g.makeMove p m) = p) (alpha : XQ) :
    ∀ (ms : List Move) (pos : Pos) (beta : XQ) (tt : TT Move) (rng : ℕ) (acc : XQ)
      (bm : Option Move), (mmMinFold g recurse alpha ms pos beta tt rng acc bm).pos = pos := by
  intro ms
  induction ms with
  | nil => intro pos beta tt rng acc bm; rfl
  | cons m rest ih =>
      intro pos beta tt rng acc bm
      simp only [mmMinFold]
      split
      · simp only [hrec]
        exact hundo pos m
      · rw [ih]
        simp only [hrec]
        exact hundo pos m

theorem mm_pos {Pos Move : Type} (g : Game Pos Move) (cfg : BotConfig) (stream : ℕ → ℚ)
    (col : Col) (hundo : ∀ p m, g.undo (g.makeMove p m) = p) :
    ∀ (d : ℕ) (pos : Pos) (alpha beta : XQ) (maxP : Bool) (tt : TT Move) (rng : ℕ),
      (mm g cfg stream col d pos alpha beta maxP tt rng).pos = pos := by
  intro d
  induction d with
  | zero =>
      intro pos alpha beta maxP tt rng
      cases hp : ttProbe g pos 0 tt with
      | some c => rw [mm_probe_some hp]
      | none => rw [mm_probe_none_zero hp]; exact mmLeaf_pos ..
  | succ d ih =>
      intro pos alpha beta maxP tt rng
      cases hp : ttProbe g pos (d + 1) tt with
      | some c => rw [mm_probe_some hp]
      | none =>
          cases hover : g.isGameOver pos with
          | true => rw [mm_probe_none_over hp hover]; exact mmLeaf_pos ..
          | false =>
              cases maxP with
              | true =>
                  rw [mm_probe_none_max hp hover]
                  exact mmMaxFold_pos g _ (fun p a b t i => ih p a b false t i) hundo _ _ _ _ _ _ _ _
              | false =>
                  rw [mm_probe_none_min hp hover]
                  exact mmMinFold_pos g _ (fun p a b t i => ih p a b true t i) hundo _ _ _ _ _ _ _ _

/-- C3: for every position, `minimax` (at any depth, window, role, cache and
random cursor) and `getBestMove` return with the position exactly as they
found it — every applied move is undone on every exit path, including
alpha-beta cutoffs — provided the rules engine's `undo` reverts its
`makeMove` (the chess.js guarantee).  The evaluator (`evaluate`) is a pure
function of the position in this embedding, so it cannot mutate it. -/
theorem search_preserves_position {Pos Move : Type} (g : Game Pos Move)
    (hundo : ∀ p m, g.undo (g.makeMove p m) = p) :
    (∀ (cfg : BotConfig) (stream : ℕ → ℚ) (col : Col) (d : ℕ) (pos : Pos) (alpha beta : XQ)
        (maxP : Bool) (tt : TT Move) (rng : ℕ),
        (mm g cfg stream col d pos alpha beta maxP tt rng).pos = pos) ∧
    (∀ (book : BookT) (cfg : BotConfig) (stream : ℕ → ℚ) (pos : Pos) (tt : TT Move) (rng : ℕ),
        (getBestMove g book cfg stream pos tt rng).pos = pos) := by
  have h1 : ∀ (cfg : BotConfig) (stream : ℕ → ℚ) (col : Col) (d : ℕ) (pos : Pos)
      (alpha beta : XQ) (maxP : Bool) (tt : TT Move) (rng : ℕ),
      (mm g cfg stream col d pos alpha beta maxP tt rng).pos = pos :=
    fun cfg stream col => mm_pos g cfg stream col hundo
  refine ⟨h1, ?_⟩
  intro book cfg stream pos tt rng
  unfold getBestMove
  simp only []
  split
  · split
    · rfl
    · exact h1 ..
  · exact h1 ..

/-- Witness for C3 on a concrete lawful game instance. -/
theorem search_preserves_position_witness :
    (∀ (p : List ℕ) (m : ℕ), gBookW.undo (gBookW.makeMove p m) = p) ∧
      (mm gBookW DEFAULT_CONFIG (fun _ => 0) Col.w 1 [] ⊥ ⊤ true [] 0).pos = [] ∧
      (getBestMove gBookW OPENING_BOOK DEFAULT_CONFIG (fun _ => 0) [] [] 0).pos = [] := by
  have hundo : ∀ (p : List ℕ) (m : ℕ), gBookW.undo (gBookW.makeMove p m) = p :=
    fun p m => rfl
  refine ⟨hundo, ?_, ?_⟩
  · exact (search_preserves_position gBookW hundo).1 DEFAULT_CONFIG (fun _ => 0) Col.w 1 [] ⊥ ⊤
      true [] 0
  · exact (search_preserves_position gBookW hundo).2 OPENING_BOOK DEFAULT_CONFIG (fun _ => 0) []
      [] 0

end Chess

namespace Chess

/-!
## Claim C7: determinism of repeated searches
-/

theorem mmLeaf_tt {Pos Move : Type} (g : Game Pos Move) (cfg : BotConfig) (stream : ℕ → ℚ)
    (col : Col) (pos : Pos) (tt : TT Move) (rng : ℕ) :
    (mmLeaf g cfg stream col pos tt rng).tt = tt := by
  unfold mmLeaf
  split <;> rfl

theorem mmLeaf_move {Pos Move : Type} (g : Game Pos Move) (cfg : BotConfig) (stream : ℕ → ℚ)
    (col : Col) (pos : Pos) (tt : TT Move) (rng : ℕ) :
    (mmLeaf g cfg stream col pos tt rng).move = none := by
  unfold mmLeaf
  split <;> rfl

theorem mmLeaf_rng {Pos Move : Type} {g : Game Pos Move} {cfg : BotConfig} {stream : ℕ → ℚ}
    {col : Col} {pos : Pos} {tt : TT Move} {rng : ℕ}
    (hrand : cfg.randomizationEnabled = false) :
    (mmLeaf g cfg stream col pos tt rng).rng = rng := by
  simp [mmLeaf, hrand]

theorem mmLeaf_score {Pos Move : Type} {g : Game Pos Move} {cfg : BotConfig} {stream : ℕ → ℚ}
    {col : Col} {pos : Pos} {tt : TT Move} {rng : ℕ}
    (hrand : cfg.randomizationEnabled = false) :
    (mmLeaf g cfg stream col pos tt rng).score = qf (evaluate g pos col) := by
  simp [mmLeaf, hrand]

theorem mmMaxFold_rng {Pos Move : Type} (g : Game Pos Move)
    (recurse : Pos → XQ → XQ → TT Move → ℕ → SearchOut Pos Move)
    (hrec : ∀ p a b t i, (recurse p a b t i).rng = i) (beta : XQ) :
    ∀ (ms : List Move) (pos : Pos) (alpha : XQ) (tt : TT Move) (rng : ℕ) (acc : XQ)
      (bm : Option Move), (mmMaxFold g recurse beta ms pos alpha tt rng acc bm).rng = rng := by
  intro ms
  induction ms with
  | nil => intro pos alpha tt rng acc bm; rfl
  | cons m rest ih =>
      intro pos alpha tt rng acc bm
      simp only [mmMaxFold]
      split
      · simp only [hrec]
      · rw [ih]
        simp only [hrec]

theorem mmMinFold_rng {Pos Move : Type} (g : Game Pos Move)
    (recurse : Pos → XQ → XQ → TT Move → ℕ → SearchOut Pos Move)
    (hrec : ∀ p a b t i, (recurse p a b t i).rng = i) (alpha : XQ) :
    ∀ (ms : List Move) (pos : Pos) (beta : XQ) (tt : TT Move) (rng : ℕ) (acc : XQ)
      (bm : Option Move), (mmMinFold g recurse alpha ms pos beta tt rng acc bm).rng = rng := by
  intro ms
  induction ms with
  | nil => intro pos beta tt rng acc bm; rfl
  | cons m rest ih =>
      intro pos beta tt rng acc bm
      simp only [mmMinFold]
      split
      · simp only [hrec]
      · rw [ih]
        simp only [hrec]

/-- With randomization disabled, `minimax` never draws from the random
stream: the cursor is returned unchanged. -/
theorem mm_rng {Pos Move : Type} (g : Game Pos Move) (cfg : BotConfig) (stream : ℕ → ℚ)
    (col : Col) (hrand : cfg.randomizationEnabled = false) :
    ∀ (d : ℕ) (pos : Pos) (alpha beta : XQ) (maxP : Bool) (tt : TT Move) (rng : ℕ),
      (mm g cfg stream col d pos alpha beta maxP tt rng).rng = rng := by
  intro d
  induction d with
  | zero =>
      intro pos alpha beta maxP tt rng
      cases hp : ttProbe g pos 0 tt with
      | some c => rw [mm_probe_some hp]
      | none => rw [mm_probe_none_zero hp]; exact mmLeaf_rng hrand
  | succ d ih =>
      intro pos alpha beta maxP tt rng
      cases hp : ttProbe g pos (d + 1) tt with
      | some c => rw [mm_probe_some hp]
      | none =>
          cases hover : g.isGameOver pos with
          | true => rw [mm_probe_none_over hp hover]; exact mmLeaf_rng hrand
          | false =>
              cases maxP with
              | true =>
                  rw [mm_probe_none_max hp hover]
                  exact mmMaxFold_rng g _ (fun p a b t i => ih p a b false t i) _ _ _ _ _ _ _ _
              | false =>
                  rw [mm_probe_none_min hp hover]
                  exact mmMinFold_rng g _ (fun p a b t i => ih p a b true t i) _ _ _ _ _ _ _ _

/-- `Map.set` then `Map.get` of the same key yields the stored entry. -/
theorem ttGet_ttSet_self {Move : Type} :
    ∀ (tt : TT Move) (key : String) (v : TTEntry Move), ttGet (ttSet tt key v) key = some v := by
  intro tt
  induction tt with
  | nil =>
      intro key v
      simp [ttSet, ttGet]
  | cons hd rest ih =>
      intro key v
      rw [ttSet]
      by_cases hk : hd.1 = key
      · rw [if_pos hk, ttGet, if_pos hk]
      · rw [if_neg hk, ttGet, if_neg hk]
        exact ih key v

/-- A repeated root search from the state left by a first root search (empty
initial cache, randomization off) returns the same move and score: the first
call's final store leaves either a cache containing exactly its own root
result under the root key, or (after the size-cap clear) the empty cache it
itself started from. -/
theorem mm_root_repeat {Pos Move : Type} (g : Game Pos Move) (cfg : BotConfig)
    (stream : ℕ → ℚ) (col : Col) (d : ℕ) (pos : Pos) (rng : ℕ)
    (hrand : cfg.randomizationEnabled = false) :
    (mm g cfg stream col d pos ⊥ ⊤ true
        (mm g cfg stream col d pos ⊥ ⊤ true [] rng).tt
        (mm g cfg stream col d pos ⊥ ⊤ true [] rng).rng).move =
      (mm g cfg stream col d pos ⊥ ⊤ true [] rng).move ∧
    (mm g cfg stream col d pos ⊥ ⊤ true
        (mm g cfg stream col d pos ⊥ ⊤ true [] rng).tt
        (mm g cfg stream col d pos ⊥ ⊤ true [] rng).rng).score =
      (mm g cfg stream col d pos ⊥ ⊤ true [] rng).score := by
  have hrng1 : (mm g cfg stream col d pos ⊥ ⊤ true [] rng).rng = rng :=
    mm_rng g cfg stream col hrand d pos ⊥ ⊤ true [] rng
  have hp1 : ttProbe g pos d ([] : TT Move) = none := rfl
  cases d with
  | zero =>
      have h1 : mm g cfg stream col 0 pos ⊥ ⊤ true [] rng =
          mmLeaf g cfg stream col pos [] rng := mm_probe_none_zero hp1
      rw [h1, mmLeaf_tt, mmLeaf_rng hrand, h1]
      exact ⟨rfl, rfl⟩
  | succ d' =>
      cases hover : g.isGameOver pos with
      | true =>
          have h1 : mm g cfg stream col (d' + 1) pos ⊥ ⊤ true [] rng =
              mmLeaf g cfg stream col pos [] rng := mm_probe_none_over hp1 hover
          rw [h1, mmLeaf_tt, mmLeaf_rng hrand, h1]
          exact ⟨rfl, rfl⟩
      | false =>
          have h1 := @mm_probe_none_max Pos Move g cfg stream col d' pos ⊥ ⊤ [] rng hp1 hover
          rw [h1] at hrng1 ⊢
          simp only [] at hrng1 ⊢
          generalize hF : mmMaxFold g (fun p a b t i => mm g cfg stream col d' p a b false t i)
              ⊤ (orderMoves (moveOrderScore g) (g.moves pos)) pos ⊥ [] rng ⊥ none = F
              at hrng1 h1 ⊢
          by_cases hcap : MAX_CACHE_SIZE < (ttSet F.tt (g.fen pos ++ toString (d' + 1))
              { score := F.score, depth := d' + 1, move := F.move }).length
          · rw [if_pos hcap, hrng1, h1]
            exact ⟨rfl, rfl⟩
          · rw [if_neg hcap]
            have hpr2 : ttProbe g pos (d' + 1) (ttSet F.tt (g.fen pos ++ toString (d' + 1))
                { score := F.score, depth := d' + 1, move := F.move }) =
                some { score := F.score, depth := d' + 1, move := F.move } := by
              unfold ttProbe
              rw [ttGet_ttSet_self]
              simp
            rw [mm_probe_some hpr2]
            exact ⟨rfl, rfl⟩

end Chess

namespace Chess

/-- With the opening book disabled, `getBestMove` is the projection of the
root `minimax` call. -/
theorem getBestMove_book_off {Pos Move : Type} (g : Game Pos Move) (book : BookT)
    (cfg : BotConfig) (stream : ℕ → ℚ) (pos : Pos) (tt : TT Move) (rng : ℕ)
    (hbook : cfg.useOpeningBook = false) :
    getBestMove g book cfg stream pos tt rng =
      { move := (mm g cfg stream (g.turn pos) cfg.searchDepth pos ⊥ ⊤ true tt rng).move,
        pos := (mm g cfg stream (g.turn pos) cfg.searchDepth pos ⊥ ⊤ true tt rng).pos,
        tt := (mm g cfg stream (g.turn pos) cfg.searchDepth pos ⊥ ⊤ true tt rng).tt,
        rng := (mm g cfg stream (g.turn pos) cfg.searchDepth pos ⊥ ⊤ true tt rng).rng } := by
  unfold getBestMove
  simp [hbook]

/-- C7 (amended): with randomization disabled and the opening book disabled
(or the position otherwise not served from the book), two successive calls
to `getBestMove` on a fresh bot — the second starting from the cache and
random cursor the first left behind — return the identical move, and the
underlying root searches return the identical move and score. -/
theorem getBestMove_deterministic {Pos Move : Type} (g : Game Pos Move) (book : BookT)
    (cfg : BotConfig) (stream : ℕ → ℚ) (pos : Pos) (rng : ℕ)
    (hrand : cfg.randomizationEnabled = false) (hbook : cfg.useOpeningBook = false) :
    (getBestMove g book cfg stream pos
        (getBestMove g book cfg stream pos [] rng).tt
        (getBestMove g book cfg stream pos [] rng).rng).move =
      (getBestMove g book cfg stream pos [] rng).move ∧
    (mm g cfg stream (g.turn pos) cfg.searchDepth pos ⊥ ⊤ true
        (getBestMove g book cfg stream pos [] rng).tt
        (getBestMove g book cfg stream pos [] rng).rng).score =
      (mm g cfg stream (g.turn pos) cfg.searchDepth pos ⊥ ⊤ true [] rng).score := by
  have hrep := mm_root_repeat g cfg stream (g.turn pos) cfg.searchDepth pos rng hrand
  rw [getBestMove_book_off g book cfg stream pos [] rng hbook]
  simp only []
  rw [getBestMove_book_off g book cfg stream pos _ _ hbook]
  simp only []
  exact ⟨hrep.1, hrep.2⟩

/-- The position used by the C7 counterexample: the standard starting
position (empty history, in book), whose two relevant replies have SAN
"e4" and "d4". -/
def gC7 : Game (List ℕ) ℕ :=
  { turn := fun _ => Col.w
    fen := fun _ => "f"
    moves := fun _ => [0, 1]
    makeMove := fun p m => m :: p
    undo := fun p => p.tail
    isGameOver := fun _ => false
    isCheckmate := fun _ => false
    isStalemate := fun _ => false
    isThreefoldRepetition := fun _ => false
    isInsufficientMaterial := fun _ => false
    isDraw := fun _ => false
    board := fun _ => emptyBoard
    movesNullSwitched := fun _ => 0
    history := fun _ => []
    san := fun _ m => if m = 0 then some "e4" else some "d4"
    mCaptured := fun _ => none
    mPiece := fun _ => Psym.p
    mTo := fun _ => "z" }

/-- The C7 counterexample configuration: randomization disabled, opening
book enabled (the default). -/
def cfgC7 : BotConfig :=
  { searchDepth := 1, useOpeningBook := true, openingBookDepth := 10,
    randomizationEnabled := false, evaluationNoise := 1/10 }

/-- A `Math.random()` history: first draw 1/5, second draw 1/2. -/
def streamC7 : ℕ → ℚ := fun i => if i = 0 then 1/5 else 1/2

/-- C7 counterexample: with `randomizationEnabled: false` but the opening
book on (its default), two successive `getBestMove` calls at the same
position and depth return different moves — the weighted book selection
draws `Math.random()` regardless of the randomization flag (draw 1/5 picks
"e4", draw 1/2 picks "d4" from the starting-position entry). -/
theorem getBestMove_not_deterministic :
    cfgC7.randomizationEnabled = false ∧
      (getBestMove gC7 OPENING_BOOK cfgC7 streamC7 [] [] 0).move = some 0 ∧
      (getBestMove gC7 OPENING_BOOK cfgC7 streamC7 []
          (getBestMove gC7 OPENING_BOOK cfgC7 streamC7 [] [] 0).tt
          (getBestMove gC7 OPENING_BOOK cfgC7 streamC7 [] [] 0).rng).move = some 1 := by
  refine ⟨rfl, ?_, ?_⟩ <;> with_unfolding_all decide

/-- The amended-C7 witness configuration: randomization and book both off. -/
def cfgBookOffW : BotConfig :=
  { searchDepth := 1, useOpeningBook := false, openingBookDepth := 10,
    randomizationEnabled := false, evaluationNoise := 1/10 }

/-- Witness for the amended C7 on a concrete game with the book disabled. -/
theorem getBestMove_deterministic_witness :
    cfgBookOffW.randomizationEnabled = false ∧ cfgBookOffW.useOpeningBook = false ∧
      (getBestMove gC7 OPENING_BOOK cfgBookOffW streamC7 []
          (getBestMove gC7 OPENING_BOOK cfgBookOffW streamC7 [] [] 0).tt
          (getBestMove gC7 OPENING_BOOK cfgBookOffW streamC7 [] [] 0).rng).move =
        (getBestMove gC7 OPENING_BOOK cfgBookOffW streamC7 [] [] 0).move := by
  refine ⟨rfl, rfl, ?_⟩
  exact (getBestMove_deterministic gC7 OPENING_BOOK cfgBookOffW streamC7 [] 0 rfl rfl).1

end Chess

namespace Chess

/-!
## Claim C5: what the transposition-cache probe can return
-/

/-- A found cache entry is an entry of the cache. -/
theorem ttGet_mem {Move : Type} :
    ∀ {tt : TT Move} {k : String} {e : TTEntry Move}, ttGet tt k = some e → (k, e) ∈ tt := by
  intro tt
  induction tt with
  | nil => intro k e h; simp [ttGet] at h
  | cons hd rest ih =>
      intro k e h
      obtain ⟨k1, e1⟩ := hd
      rw [ttGet] at h
      by_cases hk : k1 = k
      · rw [if_pos hk] at h
        subst hk
        injection h with h2
        subst h2
        exact List.mem_cons_self _ _
      · rw [if_neg hk] at h
        exact List.mem_cons_of_mem _ (ih h)

/-- C5 (amended): a cache entry is returned for a query only when it is
stored under exactly the querying key — the string `fen + depth` — and its
stored depth is at least the queried depth.  In particular an entry stored
at a shallower depth than the query is never returned, and two distinct
(position, remaining-depth) queries can be cross-served only when their
`fen + depth` strings collide (the concatenation is not injective: the
counterexample has `fen "X 11", depth 2` and `fen "X 1", depth 12` sharing
the key "X 112"). -/
theorem ttProbe_characterization {Pos Move : Type} (g : Game Pos Move) (pos : Pos) (d : ℕ)
    (tt : TT Move) (c : TTEntry Move) (h : ttProbe g pos d tt = some c) :
    (g.fen pos ++ toString d, c) ∈ tt ∧ d ≤ c.depth := by
  unfold ttProbe at h
  cases hg : ttGet tt (g.fen pos ++ toString d) with
  | none =>
      rw [hg] at h
      exact absurd h (by simp)
  | some cached =>
      rw [hg] at h
      simp only [] at h
      by_cases hd : d ≤ cached.depth
      · rw [if_pos hd] at h
        injection h with h2
        subst h2
        exact ⟨ttGet_mem hg, hd⟩
      · rw [if_neg hd] at h
        exact absurd h (by simp)

/-- Witness for the amended C5 on a concrete cache. -/
theorem ttProbe_characterization_witness :
    ttProbe gBookW [] 2 [("f2", (⟨qf 0, 3, none⟩ : TTEntry ℕ))] =
        some (⟨qf 0, 3, none⟩ : TTEntry ℕ) ∧
      ("f2", (⟨qf 0, 3, none⟩ : TTEntry ℕ)) ∈ [("f2", (⟨qf 0, 3, none⟩ : TTEntry ℕ))] ∧
      2 ≤ (⟨qf 0, 3, none⟩ : TTEntry ℕ).depth := by
  have h : ttProbe gBookW [] 2 [("f2", (⟨qf 0, 3, none⟩ : TTEntry ℕ))] =
      some (⟨qf 0, 3, none⟩ : TTEntry ℕ) := by
    with_unfolding_all decide
  exact ⟨h, (ttProbe_characterization gBookW [] 2 _ _ h).1,
    (ttProbe_characterization gBookW [] 2 _ _ h).2⟩

/-- The game of the C5 counterexample: position `[]` has FEN "X 1"
(fullmove number 1), position `[99]` has FEN "X 11" (fullmove number 11);
every position has a single legal move; the leaf `[0, 0, 99]` is given a
different mobility so the two searches score differently. -/
def gC5 : Game (List ℕ) ℕ :=
  { turn := fun _ => Col.w
    fen := fun p => if p = [] then "X 1" else if p = [99] then "X 11"
      else "n" ++ toString (100 + p.length)
    moves := fun _ => [0]
    makeMove := fun p m => m :: p
    undo := fun p => p.tail
    isGameOver := fun _ => false
    isCheckmate := fun _ => false
    isStalemate := fun _ => false
    isThreefoldRepetition := fun _ => false
    isInsufficientMaterial := fun _ => false
    isDraw := fun _ => false
    board := fun _ => emptyBoard
    movesNullSwitched := fun p => if p = [0, 0, 99] then 41 else 0
    history := fun _ => []
    san := fun _ _ => none
    mCaptured := fun _ => none
    mPiece := fun _ => Psym.p
    mTo := fun _ => "z" }

/-- Search configuration of the C5 counterexample. -/
def cfgC5 : BotConfig :=
  { searchDepth := 12, useOpeningBook := false, openingBookDepth := 10,
    randomizationEnabled := false, evaluationNoise := 1/10 }

/-- A constant-zero random stream. -/
def streamZ : ℕ → ℚ := fun _ => 0

/-- C5 counterexample: the keys `fen "X 11" + depth 2` and
`fen "X 1" + depth 12` are the same string "X 112", so the entry stored by a
depth-12 search of the position with FEN "X 1" is returned verbatim for the
depth-2 query of the distinct position with FEN "X 11", and the served
score (1/40) differs from the score (-1) the depth-2 query computes
uncached. -/
theorem ttProbe_cross_served :
    gC5.fen [99] ++ toString 2 = gC5.fen [] ++ toString 12 ∧
      gC5.fen [99] ≠ gC5.fen [] ∧
      ttProbe gC5 [99] 2 (mm gC5 cfgC5 streamZ Col.w 12 [] ⊥ ⊤ true [] 0).tt =
        some { score := qf (1/40), depth := 12, move := some 0 } ∧
      (mm gC5 cfgC5 streamZ Col.w 2 [99] ⊥ ⊤ true
          (mm gC5 cfgC5 streamZ Col.w 12 [] ⊥ ⊤ true [] 0).tt 0).score = qf (1/40) ∧
      (mm gC5 cfgC5 streamZ Col.w 2 [99] ⊥ ⊤ true [] 0).score = qf (-1) ∧
      qf (1/40) ≠ qf (-1) := by
  refine ⟨?_, ?_, ?_, ?_, ?_, ?_⟩ <;> with_unfolding_all decide

end Chess


namespace Chess

/-!
## Claim C8: when `getBestMove` returns none, and legality of its moves
-/

theorem insertDesc_length {Move : Type} (score : Move → ℚ) (a : Move) :
    ∀ l : List Move, (insertDesc score a l).length = l.length + 1 := by
  intro l
  induction l with
  | nil => rfl
  | cons b rest ih =>
      rw [insertDesc]
      split
      · rfl
      · rw [List.length_cons, ih]
        rfl

theorem insertDesc_mem {Move : Type} (score : Move → ℚ) (a x : Move) :
    ∀ l : List Move, x ∈ insertDesc score a l → x = a ∨ x ∈ l := by
  intro l
  induction l with
  | nil =>
      intro h
      rw [insertDesc] at h
      exact Or.inl (List.mem_singleton.mp h)
  | cons b rest ih =>
      intro h
      rw [insertDesc] at h
      split at h
      · rcases List.mem_cons.mp h with h2 | h2
        · exact Or.inl h2
        · exact Or.inr h2
      · rcases List.mem_cons.mp h with h2 | h2
        · exact Or.inr (h2 ▸ List.mem_cons_self _ _)
        · rcases ih h2 with h3 | h3
          · exact Or.inl h3
          · exact Or.inr (List.mem_cons_of_mem _ h3)

theorem orderMoves_foldl_length {Move : Type} (score : Move → ℚ) :
    ∀ (l acc : List Move),
      (l.foldl (fun acc m => insertDesc score m acc) acc).length = acc.length + l.length := by
  intro l
  induction l with
  | nil => intro acc; rfl
  | cons m rest ih =>
      intro acc
      rw [List.foldl_cons, ih, insertDesc_length, List.length_cons]
      omega

theorem orderMoves_length {Move : Type} (score : Move → ℚ) (ms : List Move) :
    (orderMoves score ms).length = ms.length := by
  rw [orderMoves, orderMoves_foldl_length]
  simp

theorem orderMoves_foldl_mem {Move : Type} (score : Move → ℚ) :
    ∀ (l acc : List Move) (x : Move),
      x ∈ l.foldl (fun acc m => insertDesc score m acc) acc → x ∈ acc ∨ x ∈ l := by
  intro l
  induction l with
  | nil => intro acc x h; exact Or.inl h
  | cons m rest ih =>
      intro acc x h
      rw [List.foldl_cons] at h
      rcases ih _ x h with h2 | h2
      · rcases insertDesc_mem score m x acc h2 with h3 | h3
        · exact Or.inr (h3 ▸ List.mem_cons_self _ _)
        · exact Or.inl h3
      · exact Or.inr (List.mem_cons_of_mem _ h2)

theorem orderMoves_mem {Move : Type} {score : Move → ℚ} {ms : List Move} {x : Move}
    (h : x ∈ orderMoves score ms) : x ∈ ms := by
  rcases orderMoves_foldl_mem score ms [] x h with h2 | h2
  · exact absurd h2 (List.not_mem_nil x)
  · exact h2

/-- All scores stored in a cache are finite. -/
def ttFinite {Move : Type} (tt : TT Move) : Prop :=
  ∀ e ∈ tt, ∃ q : ℚ, (e.2).score = qf q

theorem ttFinite_nil {Move : Type} : ttFinite ([] : TT Move) := by
  intro e he
  exact absurd he (List.not_mem_nil e)

theorem ttFinite_ttSet {Move : Type} {v : TTEntry Move} (hv : ∃ q, v.score = qf q) :
    ∀ {tt : TT Move} (key : String), ttFinite tt → ttFinite (ttSet tt key v) := by
  intro tt
  induction tt with
  | nil =>
      intro key _ e he
      rw [ttSet] at he
      rw [List.mem_singleton.mp he]
      exact hv
  | cons hd rest ih =>
      intro key hfin e he
      rw [ttSet] at he
      split at he
      · rcases List.mem_cons.mp he with h2 | h2
        · rw [h2]
          exact hv
        · exact hfin _ (List.mem_cons_of_mem _ h2)
      · rcases List.mem_cons.mp he with h2 | h2
        · rw [h2]
          exact hfin _ (List.mem_cons_self _ _)
        · exact ih key (fun x hx => hfin x (List.mem_cons_of_mem _ hx)) _ h2

theorem mmMaxFold_fin {Pos Move : Type} (g : Game Pos Move)
    (recurse : Pos → XQ → XQ → TT Move → ℕ → SearchOut Pos Move)
    (hrec : ∀ p a b t i, ttFinite t →
      (∃ q, (recurse p a b t i).score = qf q) ∧ ttFinite (recurse p a b t i).tt)
    (beta : XQ) :
    ∀ (ms : List Move) (pos : Pos) (alpha : XQ) (tt : TT Move) (rng : ℕ) (acc : XQ)
      (bm : Option Move), ttFinite tt →
      ttFinite (mmMaxFold g recurse beta ms pos alpha tt rng acc bm).tt ∧
        ((mmMaxFold g recurse beta ms pos alpha tt rng acc bm).score = acc ∨
          ∃ q, (mmMaxFold g recurse beta ms pos alpha tt rng acc bm).score = qf q) := by
  intro ms
  induction ms with
  | nil =>
      intro pos alpha tt rng acc bm hfin
      exact ⟨hfin, Or.inl rfl⟩
  | cons m rest ih =>
      intro pos alpha tt rng acc bm hfin
      obtain ⟨⟨q, hq⟩, hfin2⟩ := hrec (g.makeMove pos m) alpha beta tt rng hfin
      simp only [mmMaxFold]
      split
      · refine ⟨hfin2, ?_⟩
        split
        · exact Or.inr ⟨q, hq⟩
        · exact Or.inl rfl
      · obtain ⟨hfin3, hsc⟩ := ih (g.undo (recurse (g.makeMove pos m) alpha beta tt rng).pos)
          (max alpha (recurse (g.makeMove pos m) alpha beta tt rng).score)
          (recurse (g.makeMove pos m) alpha beta tt rng).tt
          (recurse (g.makeMove pos m) alpha beta tt rng).rng
          (if acc < (recurse (g.makeMove pos m) alpha beta tt rng).score
            then (recurse (g.makeMove pos m) alpha beta tt rng).score else acc)
          (if acc < (recurse (g.makeMove pos m) alpha beta tt rng).score then some m else bm)
          hfin2
        refine ⟨hfin3, ?_⟩
        rcases hsc with hsc | hsc
        · rw [hsc]
          split
          · exact Or.inr ⟨q, hq⟩
          · exact Or.inl rfl
        · exact Or.inr hsc

theorem mmMinFold_fin {Pos Move : Type} (g : Game Pos Move)
    (recurse : Pos → XQ → XQ → TT Move → ℕ → SearchOut Pos Move)
    (hrec : ∀ p a b t i, ttFinite t →
      (∃ q, (recurse p a b t i).score = qf q) ∧ ttFinite (recurse p a b t i).tt)
    (alpha : XQ) :
    ∀ (ms : List Move) (pos : Pos) (beta : XQ) (tt : TT Move) (rng : ℕ) (acc : XQ)
      (bm : Option Move), ttFinite tt →
      ttFinite (mmMinFold g recurse alpha ms pos beta tt rng acc bm).tt ∧
        ((mmMinFold g recurse alpha ms pos beta tt rng acc bm).score = acc ∨
          ∃ q, (mmMinFold g recurse alpha ms pos beta tt rng acc bm).score = qf q) := by
  intro ms
  induction ms with
  | nil =>
      intro pos beta tt rng acc bm hfin
      exact ⟨hfin, Or.inl rfl⟩
  | cons m rest ih =>
      intro pos beta tt rng acc bm hfin
      obtain ⟨⟨q, hq⟩, hfin2⟩ := hrec (g.makeMove pos m) alpha beta tt rng hfin
      simp only [mmMinFold]
      split
      · refine ⟨hfin2, ?_⟩
        split
        · exact Or.inr ⟨q, hq⟩
        · exact Or.inl rfl
      · obtain ⟨hfin3, hsc⟩ := ih (g.undo (recurse (g.makeMove pos m) alpha beta tt rng).pos)
          (min beta (recurse (g.makeMove pos m) alpha beta tt rng).score)
          (recurse (g.makeMove pos m) alpha beta tt rng).tt
          (recurse (g.makeMove pos m) alpha beta tt rng).rng
          (if (recurse (g.makeMove pos m) alpha beta tt rng).score < acc
            then (recurse (g.makeMove pos m) alpha beta tt rng).score else acc)
          (if (recurse (g.makeMove pos m) alpha beta tt rng).score < acc then some m else bm)
          hfin2
        refine ⟨hfin3, ?_⟩
        rcases hsc with hsc | hsc
        · rw [hsc]
          split
          · exact Or.inr ⟨q, hq⟩
          · exact Or.inl rfl
        · exact Or.inr hsc

/-- `minimax` always computes a finite score and keeps every stored score
finite, provided positions without legal moves are game over (the chess.js
guarantee: no moves means checkmate or stalemate). -/
theorem mm_finite {Pos Move : Type} (g : Game Pos Move) (cfg : BotConfig) (stream : ℕ → ℚ)
    (col : Col) (hmv : ∀ p, g.moves p = [] → g.isGameOver p = true) :
    ∀ (d : ℕ) (pos : Pos) (alpha beta : XQ) (maxP : Bool) (tt : TT Move) (rng : ℕ),
      ttFinite tt →
      (∃ q, (mm g cfg stream col d pos alpha beta maxP tt rng).score = qf q) ∧
        ttFinite (mm g cfg stream col d pos alpha beta maxP tt rng).tt := by
  intro d
  induction d with
  | zero =>
      intro pos alpha beta maxP tt rng hfin
      cases hp : ttProbe g pos 0 tt with
      | some c =>
          rw [mm_probe_some hp]
          obtain ⟨hmem, -⟩ := ttProbe_characterization g pos 0 tt c hp
          exact ⟨hfin _ hmem, hfin⟩
      | none =>
          rw [mm_probe_none_zero hp]
          refine ⟨?_, by rw [mmLeaf_tt]; exact hfin⟩
          unfold mmLeaf
          split
          · exact ⟨_, rfl⟩
          · exact ⟨_, rfl⟩
  | succ d ih =>
      intro pos alpha beta maxP tt rng hfin
      cases hp : ttProbe g pos (d + 1) tt with
      | some c =>
          rw [mm_probe_some hp]
          obtain ⟨hmem, -⟩ := ttProbe_characterization g pos (d + 1) tt c hp
          exact ⟨hfin _ hmem, hfin⟩
      | none =>
          cases hover : g.isGameOver pos with
          | true =>
              rw [mm_probe_none_over hp hover]
              refine ⟨?_, by rw [mmLeaf_tt]; exact hfin⟩
              unfold mmLeaf
              split
              · exact ⟨_, rfl⟩
              · exact ⟨_, rfl⟩
          | false =>
              have hmsne : orderMoves (moveOrderScore g) (g.moves pos) ≠ [] := by
                intro hnil
                have h0 : (orderMoves (moveOrderScore g) (g.moves pos)).length = 0 := by
                  rw [hnil]; rfl
                rw [orderMoves_length] at h0
                rw [hmv pos (List.length_eq_zero.mp h0)] at hover
                exact Bool.noConfusion hover
              cases maxP with
              | true =>
                  rw [mm_probe_none_max hp hover]
                  simp only []
                  cases hms : orderMoves (moveOrderScore g) (g.moves pos) with
                  | nil => exact absurd hms hmsne
                  | cons m rest =>
                      have hrec2 : ∀ p a b t i, ttFinite t →
                          (∃ q, (mm g cfg stream col d p a b false t i).score = qf q) ∧
                            ttFinite (mm g cfg stream col d p a b false t i).tt :=
                        fun p a b t i ht => ih p a b false t i ht
                      obtain ⟨⟨q, hq⟩, hfin2⟩ :=
                        hrec2 (g.makeMove pos m) alpha beta tt rng hfin
                      obtain ⟨hfin3, -⟩ := mmMaxFold_fin g _ hrec2 beta (m :: rest) pos alpha
                        tt rng ⊥ none hfin
                      have hscfin : ∃ q2, (mmMaxFold g
                          (fun p a b t i => mm g cfg stream col d p a b false t i) beta
                          (m :: rest) pos alpha tt rng ⊥ none).score = qf q2 := by
                        simp only [mmMaxFold]
                        rw [hq, if_pos (bot_lt_qf q)]
                        split
                        · exact ⟨q, rfl⟩
                        · obtain ⟨-, hsc2⟩ := mmMaxFold_fin g _ hrec2 beta rest
                            (g.undo (mm g cfg stream col d (g.makeMove pos m) alpha beta
                              false tt rng).pos)
                            (max alpha (qf q))
                            (mm g cfg stream col d (g.makeMove pos m) alpha beta
                              false tt rng).tt
                            (mm g cfg stream col d (g.makeMove pos m) alpha beta
                              false tt rng).rng (qf q) (some m) hfin2
                          rcases hsc2 with hsc2 | hsc2
                          · exact ⟨q, hsc2⟩
                          · exact hsc2
                      refine ⟨hscfin, ?_⟩
                      obtain ⟨q3, hq3⟩ := hscfin
                      split
                      · exact ttFinite_nil
                      · exact ttFinite_ttSet ⟨q3, hq3⟩ _ hfin3
              | false =>
                  rw [mm_probe_none_min hp hover]
                  simp only []
                  cases hms : orderMoves (moveOrderScore g) (g.moves pos) with
                  | nil => exact absurd hms hmsne
                  | cons m rest =>
                      have hrec2 : ∀ p a b t i, ttFinite t →
                          (∃ q, (mm g cfg stream col d p a b true t i).score = qf q) ∧
                            ttFinite (mm g cfg stream col d p a b true t i).tt :=
                        fun p a b t i ht => ih p a b true t i ht
                      obtain ⟨⟨q, hq⟩, hfin2⟩ :=
                        hrec2 (g.makeMove pos m) alpha beta tt rng hfin
                      obtain ⟨hfin3, -⟩ := mmMinFold_fin g _ hrec2 alpha (m :: rest) pos beta
                        tt rng ⊤ none hfin
                      have hscfin : ∃ q2, (mmMinFold g
                          (fun p a b t i => mm g cfg stream col d p a b true t i) alpha
                          (m :: rest) pos beta tt rng ⊤ none).score = qf q2 := by
                        simp only [mmMinFold]
                        rw [hq, if_pos (qf_lt_top q)]
                        split
                        · exact ⟨q, rfl⟩
                        · obtain ⟨-, hsc2⟩ := mmMinFold_fin g _ hrec2 alpha rest
                            (g.undo (mm g cfg stream col d (g.makeMove pos m) alpha beta
                              true tt rng).pos)
                            (min beta (qf q))
                            (mm g cfg stream col d (g.makeMove pos m) alpha beta
                              true tt rng).tt
                            (mm g cfg stream col d (g.makeMove pos m) alpha beta
                              true tt rng).rng (qf q) (some m) hfin2
                          rcases hsc2 with hsc2 | hsc2
                          · exact ⟨q, hsc2⟩
                          · exact hsc2
                      refine ⟨hscfin, ?_⟩
                      obtain ⟨q3, hq3⟩ := hscfin
                      split
                      · exact ttFinite_nil
                      · exact ttFinite_ttSet ⟨q3, hq3⟩ _ hfin3

end Chess

namespace Chess

theorem mmMaxFold_some_mono {Pos Move : Type} (g : Game Pos Move)
    (recurse : Pos → XQ → XQ → TT Move → ℕ → SearchOut Pos Move) (beta : XQ) :
    ∀ (ms : List Move) (pos : Pos) (alpha : XQ) (tt : TT Move) (rng : ℕ) (acc : XQ)
      (bm : Option Move), bm.isSome = true →
      (mmMaxFold g recurse beta ms pos alpha tt rng acc bm).move.isSome = true := by
  intro ms
  induction ms with
  | nil => intro pos alpha tt rng acc bm hbm; exact hbm
  | cons m rest ih =>
      intro pos alpha tt rng acc bm hbm
      simp only [mmMaxFold]
      by_cases hc : acc < (recurse (g.makeMove pos m) alpha beta tt rng).score
      · rw [if_pos hc, if_pos hc]
        split
        · rfl
        · exact ih _ _ _ _ _ _ rfl
      · rw [if_neg hc, if_neg hc]
        split
        · exact hbm
        · exact ih _ _ _ _ _ _ hbm

/-- The maximizing loop starting from `-Infinity` and no best move always
selects a move on a non-empty list: the first finite child score strictly
beats `-Infinity`. -/
theorem mmMaxFold_some {Pos Move : Type} (g : Game Pos Move)
    (recurse : Pos → XQ → XQ → TT Move → ℕ → SearchOut Pos Move)
    (hrec : ∀ p a b t i, ttFinite t →
      (∃ q, (recurse p a b t i).score = qf q) ∧ ttFinite (recurse p a b t i).tt)
    (beta : XQ) (m : Move) (rest : List Move) (pos : Pos) (alpha : XQ) (tt : TT Move)
    (rng : ℕ) (hfin : ttFinite tt) :
    (mmMaxFold g recurse beta (m :: rest) pos alpha tt rng ⊥ none).move.isSome = true := by
  obtain ⟨⟨q, hq⟩, -⟩ := hrec (g.makeMove pos m) alpha beta tt rng hfin
  simp only [mmMaxFold]
  rw [hq, if_pos (bot_lt_qf q), if_pos (bot_lt_qf q)]
  split
  · rfl
  · exact mmMaxFold_some_mono g recurse beta _ _ _ _ _ _ _ rfl

/-- Any move selected by the maximizing loop is the incoming candidate or a
member of the iterated list. -/
theorem mmMaxFold_move_origin {Pos Move : Type} (g : Game Pos Move)
    (recurse : Pos → XQ → XQ → TT Move → ℕ → SearchOut Pos Move) (beta : XQ) :
    ∀ (ms : List Move) (pos : Pos) (alpha : XQ) (tt : TT Move) (rng : ℕ) (acc : XQ)
      (bm : Option Move),
      (mmMaxFold g recurse beta ms pos alpha tt rng acc bm).move = bm ∨
        ∃ m ∈ ms, (mmMaxFold g recurse beta ms pos alpha tt rng acc bm).move = some m := by
  intro ms
  induction ms with
  | nil => intro pos alpha tt rng acc bm; exact Or.inl rfl
  | cons m rest ih =>
      intro pos alpha tt rng acc bm
      simp only [mmMaxFold]
      by_cases hc : acc < (recurse (g.makeMove pos m) alpha beta tt rng).score
      · rw [if_pos hc, if_pos hc]
        split
        · exact Or.inr ⟨m, List.mem_cons_self _ _, rfl⟩
        · rcases ih (g.undo (recurse (g.makeMove pos m) alpha beta tt rng).pos)
              (max alpha (recurse (g.makeMove pos m) alpha beta tt rng).score)
              (recurse (g.makeMove pos m) alpha beta tt rng).tt
              (recurse (g.makeMove pos m) alpha beta tt rng).rng
              (recurse (g.makeMove pos m) alpha beta tt rng).score (some m) with h | ⟨m2, hm2, h⟩
          · exact Or.inr ⟨m, List.mem_cons_self _ _, h⟩
          · exact Or.inr ⟨m2, List.mem_cons_of_mem _ hm2, h⟩
      · rw [if_neg hc, if_neg hc]
        split
        · exact Or.inl rfl
        · rcases ih (g.undo (recurse (g.makeMove pos m) alpha beta tt rng).pos)
              (max alpha (recurse (g.makeMove pos m) alpha beta tt rng).score)
              (recurse (g.makeMove pos m) alpha beta tt rng).tt
              (recurse (g.makeMove pos m) alpha beta tt rng).rng
              acc bm with h | ⟨m2, hm2, h⟩
          · exact Or.inl h
          · exact Or.inr ⟨m2, List.mem_cons_of_mem _ hm2, h⟩

/-- On a non-game-over position the ordered move list is non-empty, given
the rules-engine guarantee that a position without legal moves is over. -/
theorem orderMoves_ne_nil {Pos Move : Type} {g : Game Pos Move} {pos : Pos}
    (hmv : ∀ p, g.moves p = [] → g.isGameOver p = true)
    (hover : g.isGameOver pos = false) :
    orderMoves (moveOrderScore g) (g.moves pos) ≠ [] := by
  intro hnil
  have h0 : (orderMoves (moveOrderScore g) (g.moves pos)).length = 0 := by
    rw [hnil]; rfl
  rw [orderMoves_length] at h0
  rw [hmv pos (List.length_eq_zero.mp h0)] at hover
  exact Bool.noConfusion hover

/-- The root search on a fresh cache returns no move exactly on game-over
positions, and any returned move is legal. -/
theorem mm_root_none_iff {Pos Move : Type} (g : Game Pos Move) (cfg : BotConfig)
    (stream : ℕ → ℚ) (col : Col) (hmv : ∀ p, g.moves p = [] → g.isGameOver p = true)
    (d : ℕ) (hd1 : 1 ≤ d) (pos : Pos) :
    ∀ rng : ℕ,
      ((mm g cfg stream col d pos ⊥ ⊤ true [] rng).move = none ↔ g.isGameOver pos = true) ∧
        ∀ m, (mm g cfg stream col d pos ⊥ ⊤ true [] rng).move = some m → m ∈ g.moves pos := by
  intro rng
  cases d with
  | zero => exact absurd hd1 (by omega)
  | succ d2 =>
      have hp : ttProbe g pos (d2 + 1) ([] : TT Move) = none := rfl
      cases hover : g.isGameOver pos with
      | true =>
          rw [mm_probe_none_over hp hover, mmLeaf_move]
          refine ⟨by simp, ?_⟩
          intro m hm
          exact absurd hm (by simp)
      | false =>
          rw [mm_probe_none_max hp hover]
          simp only []
          cases hms : orderMoves (moveOrderScore g) (g.moves pos) with
          | nil => exact absurd hms (orderMoves_ne_nil hmv hover)
          | cons m rest =>
              have hrec2 : ∀ p a b t i, ttFinite t →
                  (∃ q, (mm g cfg stream col d2 p a b false t i).score = qf q) ∧
                    ttFinite (mm g cfg stream col d2 p a b false t i).tt :=
                fun p a b t i ht => mm_finite g cfg stream col hmv d2 p a b false t i ht
              have hsome := mmMaxFold_some g
                (fun p a b t i => mm g cfg stream col d2 p a b false t i) hrec2 ⊤ m rest pos
                ⊥ [] rng ttFinite_nil
              constructor
              · constructor
                · intro hnone
                  rw [hnone] at hsome
                  exact Bool.noConfusion hsome
                · intro hcontra
                  exact Bool.noConfusion hcontra
              · intro mv hmv2
                rcases mmMaxFold_move_origin g
                    (fun p a b t i => mm g cfg stream col d2 p a b false t i) ⊤ (m :: rest)
                    pos ⊥ [] rng ⊥ none with h | ⟨m2, hm2, h⟩
                · rw [hmv2] at h
                  exact absurd h.symm (by simp)
                · rw [hmv2] at h
                  injection h with h3
                  subst h3
                  exact orderMoves_mem (hms ▸ hm2)

/-- The C8 counterexample position: a King-and-knight versus king position,
drawn by insufficient material — so chess.js reports game over — but with
legal moves (the knight can play Nf3).  The worker rebuilds the game as
`new Chess(fen)`, so the move history is empty, and the empty key "" is in
the book table (the starting-position entry) for every such position. -/
def gC8 : Game (List ℕ) ℕ :=
  { turn := fun _ => Col.w
    fen := fun _ => "7k/8/8/8/8/8/8/4K1N1 w - - 0 60"
    moves := fun _ => [0]
    makeMove := fun p m => m :: p
    undo := fun p => p.tail
    isGameOver := fun _ => true
    isCheckmate := fun _ => false
    isStalemate := fun _ => false
    isThreefoldRepetition := fun _ => false
    isInsufficientMaterial := fun _ => true
    isDraw := fun _ => true
    board := fun _ => emptyBoard
    movesNullSwitched := fun _ => 0
    history := fun _ => []
    san := fun _ _ => some "Nf3"
    mCaptured := fun _ => none
    mPiece := fun _ => Psym.n
    mTo := fun _ => "f3" }

/-- A `Math.random()` history whose first draw is 4/5 (the weighted
selection on the starting-position entry, total weight 100, then lands on
the third candidate "Nf3": 80 - 40 - 35 - 15 drops to -10 <= 0). -/
def streamC8 : ℕ → ℚ := fun _ => 4/5

/-- C8 counterexample: `getBestMove` does not return none on every
game-over position.  On the drawn-by-insufficient-material position `gC8`
with a legal knight move, under the default configuration (book on), the
worker-rebuilt game has empty history, so the empty history key hits the
book's starting-position entry regardless of the position on the board;
the weighted selection (draw 4/5) returns "Nf3", the SAN match over the
legal-move list succeeds, and `getBestMove` returns that move even though
`isGameOver` is true — refuting the only-if direction of the claimed
equivalence. -/
theorem getBestMove_gameOver_serves_book :
    gC8.isGameOver [] = true ∧
      DEFAULT_CONFIG.useOpeningBook = true ∧
      (getBestMove gC8 OPENING_BOOK DEFAULT_CONFIG streamC8 [] [] 0).move = some 0 := by
  refine ⟨rfl, rfl, ?_⟩
  with_unfolding_all decide

/-- Claim C8 (amended): on a fresh bot (empty cache), any move `getBestMove`
returns — book hit or search — is a member of the rules engine's legal-move
list, and a none return does imply the position is game over; but the
converse direction of the claimed equivalence holds only when the opening
book is not consulted (in particular whenever `useOpeningBook` is false):
a consulted book can return a legal move on a game-over position (see
`getBestMove_gameOver_serves_book`).  Hypotheses record the rules-engine
guarantee (no legal moves implies game over) and the configured search
depth being at least 1. -/
theorem getBestMove_none_iff {Pos Move : Type} (g : Game Pos Move) (book : BookT)
    (cfg : BotConfig) (stream : ℕ → ℚ) (pos : Pos) (rng : ℕ)
    (hmv : ∀ p, g.moves p = [] → g.isGameOver p = true)
    (hd : 1 ≤ cfg.searchDepth) :
    ((getBestMove g book cfg stream pos [] rng).move = none → g.isGameOver pos = true) ∧
      (∀ m, (getBestMove g book cfg stream pos [] rng).move = some m → m ∈ g.moves pos) ∧
      ((cfg.useOpeningBook && shouldUseBookT book (g.history pos) cfg.openingBookDepth)
          = false →
        ((getBestMove g book cfg stream pos [] rng).move = none ↔
          g.isGameOver pos = true)) := by
  have hroot := mm_root_none_iff g cfg stream (g.turn pos) hmv cfg.searchDepth hd pos
  unfold getBestMove
  simp only []
  by_cases hc : (cfg.useOpeningBook && shouldUseBookT book (g.history pos)
      cfg.openingBookDepth) = true
  · rw [if_pos hc]
    cases hbm : getBookMoveT book (g.history pos) (stream rng) with
    | some bmv =>
        simp only [hbm]
        cases hfind : (g.moves pos).find? (fun m => g.san pos m == some bmv) with
        | some mv =>
            simp only [hfind]
            refine ⟨?_, ?_, ?_⟩
            · intro h
              exact Option.noConfusion h
            · intro m hm
              injection hm with h2
              subst h2
              exact List.mem_of_find?_eq_some hfind
            · intro hoff
              rw [hc] at hoff
              exact Bool.noConfusion hoff
        | none =>
            simp only [hfind]
            exact ⟨(hroot _).1.mp, (hroot _).2, fun _ => (hroot _).1⟩
    | none =>
        simp only [hbm]
        exact ⟨(hroot _).1.mp, (hroot _).2, fun _ => (hroot _).1⟩
  · rw [if_neg hc]
    simp only []
    exact ⟨(hroot _).1.mp, (hroot _).2, fun _ => (hroot _).1⟩

/-- Witness for the amended C8 on a concrete non-terminal position with the
book off, exercising all three conclusions including the restored
equivalence. -/
theorem getBestMove_none_iff_witness :
    (∀ p : List ℕ, gC7.moves p = [] → gC7.isGameOver p = true) ∧
      1 ≤ cfgBookOffW.searchDepth ∧
      (cfgBookOffW.useOpeningBook && shouldUseBookT OPENING_BOOK (gC7.history [])
          cfgBookOffW.openingBookDepth) = false ∧
      ((getBestMove gC7 OPENING_BOOK cfgBookOffW streamZ [] [] 0).move = none ↔
        gC7.isGameOver [] = true) ∧
      (∀ m, (getBestMove gC7 OPENING_BOOK cfgBookOffW streamZ [] [] 0).move = some m →
        m ∈ gC7.moves []) := by
  have hmv : ∀ p : List ℕ, gC7.moves p = [] → gC7.isGameOver p = true := by
    intro p h
    exact absurd h (by simp [gC7])
  have h := getBestMove_none_iff gC7 OPENING_BOOK cfgBookOffW streamZ [] 0 hmv (by decide)
  exact ⟨hmv, by decide, by decide, h.2.2 (by decide), h.2.1⟩

end Chess

namespace Chess

/-!
## Claim C2: pruned versus unpruned search

`minimaxNoCache` is `ChessBot.minimax` with the two transposition-cache
lines removed and randomization disabled, written as a pure recursion on
`makeMove` (by C3, under the lawful-`undo` contract the mutate/recurse/undo
pattern returns the same value); it is also the shape of the cache-free
`minimax` of src/src/lib/chess-ai.ts.  `fullMinimax` is the spec's
comparison point: an unpruned full minimax over the same game tree (same
move ordering, same first-strict-improvement tie-breaking, no windows).
-/

/-- The maximizing loop of the cache-free pruned search. -/
def abMaxGo {Pos Move : Type} (g : Game Pos Move)
    (recurse : Pos → XQ → XQ → Option Move × XQ) (beta : XQ) :
    List Move → Pos → XQ → Option Move → XQ → Option Move × XQ
  | [], _, acc, bm, _ => (bm, acc)
  | m :: rest, pos, acc, bm, a =>
      let v := (recurse (g.makeMove pos m) a beta).2
      let acc1 := if acc < v then v else acc
      let bm1 := if acc < v then some m else bm
      let a1 := max a v
      if beta ≤ a1 then (bm1, acc1) else abMaxGo g recurse beta rest pos acc1 bm1 a1

/-- The minimizing loop of the cache-free pruned search. -/
def abMinGo {Pos Move : Type} (g : Game Pos Move)
    (recurse : Pos → XQ → XQ → Option Move × XQ) (alpha : XQ) :
    List Move → Pos → XQ → Option Move → XQ → Option Move × XQ
  | [], _, acc, bm, _ => (bm, acc)
  | m :: rest, pos, acc, bm, b =>
      let v := (recurse (g.makeMove pos m) alpha b).2
      let acc1 := if v < acc then v else acc
      let bm1 := if v < acc then some m else bm
      let b1 := min b v
      if b1 ≤ alpha then (bm1, acc1) else abMinGo g recurse alpha rest pos acc1 bm1 b1

/-- `ChessBot.minimax` without the transposition cache and with
randomization disabled: alpha-beta over the ordered move list. -/
def minimaxNoCache {Pos Move : Type} (g : Game Pos Move) (col : Col) :
    ℕ → Pos → XQ → XQ → Bool → Option Move × XQ
  | 0, pos, _, _, _ => (none, qf (evaluate g pos col))
  | d + 1, pos, alpha, beta, maxP =>
      if g.isGameOver pos then (none, qf (evaluate g pos col))
      else
        let ms := orderMoves (moveOrderScore g) (g.moves pos)
        if maxP then
          abMaxGo g (fun p a b => minimaxNoCache g col d p a b false) beta ms pos ⊥ none alpha
        else
          abMinGo g (fun p a b => minimaxNoCache g col d p a b true) alpha ms pos ⊤ none beta

/-- The maximizing loop of the spec's unpruned minimax. -/
def fmMaxGo {Pos Move : Type} (g : Game Pos Move) (recurse : Pos → Option Move × XQ) :
    List Move → Pos → XQ → Option Move → Option Move × XQ
  | [], _, acc, bm => (bm, acc)
  | m :: rest, pos, acc, bm =>
      let v := (recurse (g.makeMove pos m)).2
      let acc1 := if acc < v then v else acc
      let bm1 := if acc < v then some m else bm
      fmMaxGo g recurse rest pos acc1 bm1

/-- The minimizing loop of the spec's unpruned minimax. -/
def fmMinGo {Pos Move : Type} (g : Game Pos Move) (recurse : Pos → Option Move × XQ) :
    List Move → Pos → XQ → Option Move → Option Move × XQ
  | [], _, acc, bm => (bm, acc)
  | m :: rest, pos, acc, bm =>
      let v := (recurse (g.makeMove pos m)).2
      let acc1 := if v < acc then v else acc
      let bm1 := if v < acc then some m else bm
      fmMinGo g recurse rest pos acc1 bm1

/-- The spec's unpruned full minimax over the same game tree: same ordered
move list, same strict-improvement selection, no alpha-beta windows. -/
def fullMinimax {Pos Move : Type} (g : Game Pos Move) (col : Col) :
    ℕ → Pos → Bool → Option Move × XQ
  | 0, pos, _ => (none, qf (evaluate g pos col))
  | d + 1, pos, maxP =>
      if g.isGameOver pos then (none, qf (evaluate g pos col))
      else
        let ms := orderMoves (moveOrderScore g) (g.moves pos)
        if maxP then fmMaxGo g (fun p => fullMinimax g col d p false) ms pos ⊥ none
        else fmMinGo g (fun p => fullMinimax g col d p true) ms pos ⊤ none

/-- Tails of the move lists of the C2 counterexample game (every position
has at least the move `0`, so no position is moveless). -/
def extraC2 : List ℕ → List ℕ
  | [] => [1]
  | [0] => [1]
  | [1] => [1]
  | [0, 0] => [1]
  | [1, 0] => [1]
  | [0, 1] => [1]
  | _ => []

/-- FENs of the C2 counterexample: the nodes `[1, 0]` and `[0, 1]` are a
transposition (same FEN "t", reached by different move orders at the same
remaining depth). -/
def fenC2 : List ℕ → String
  | [] => "rt"
  | [0] => "na"
  | [1] => "nb"
  | [0, 0] => "nc"
  | [1, 0] => "t"
  | [0, 1] => "t"
  | [1, 1] => "ny"
  | [0, 0, 0] => "e1"
  | [1, 0, 0] => "e2"
  | [0, 1, 0] => "e3"
  | [1, 1, 0] => "e4"
  | [0, 0, 1] => "e5"
  | [1, 0, 1] => "e6"
  | [0, 1, 1] => "e7"
  | _ => "zz"

/-- Null-switched move counts tuning the leaf evaluations of the C2 game
(leaf value is `(1 - n) / 40` through the endgame mobility term). -/
def nullC2 : List ℕ → ℕ
  | [0, 0, 0] => 396
  | [1, 0, 0] => 301
  | [0, 1, 0] => 201
  | [1, 1, 0] => 101
  | [0, 0, 1] => 201
  | [1, 0, 1] => 101
  | [0, 1, 1] => 151
  | _ => 0

/-- The C2 counterexample game: a depth-3 tree with a transposition between
the second child of the first branch and the first child of the second. -/
def gC2 : Game (List ℕ) ℕ :=
  { turn := fun _ => Col.w
    fen := fenC2
    moves := fun p => 0 :: extraC2 p
    makeMove := fun p m => m :: p
    undo := fun p => p.tail
    isGameOver := fun _ => false
    isCheckmate := fun _ => false
    isStalemate := fun _ => false
    isThreefoldRepetition := fun _ => false
    isInsufficientMaterial := fun _ => false
    isDraw := fun _ => false
    board := fun _ => emptyBoard
    movesNullSwitched := nullC2
    history := fun _ => []
    san := fun _ _ => none
    mCaptured := fun _ => none
    mPiece := fun _ => Psym.p
    mTo := fun _ => "z" }

/-- The C2 counterexample configuration: randomization off, book off,
depth 3, fresh cache. -/
def cfgC2 : BotConfig :=
  { searchDepth := 3, useOpeningBook := false, openingBookDepth := 10,
    randomizationEnabled := false, evaluationNoise := 1/10 }

/-- C2 counterexample: at the concrete position with a transposition in its
depth-3 tree, the pruned search with its transposition cache (randomization
disabled, cache initially empty) returns score -5, while the unpruned full
minimax over the same tree returns -15/4: the cache entry stored for the
transposed node under a beta cutoff is a bound, not its true value, and is
served as exact on the second visit. -/
theorem pruned_ne_fullMinimax :
    cfgC2.randomizationEnabled = false ∧
      (mm gC2 cfgC2 streamZ Col.w 3 [] ⊥ ⊤ true [] 0).score = qf (-5) ∧
      (fullMinimax gC2 Col.w 3 [] true).2 = qf (-(15/4)) ∧
      (mm gC2 cfgC2 streamZ Col.w 3 [] ⊥ ⊤ true [] 0).score ≠
        (fullMinimax gC2 Col.w 3 [] true).2 := by
  refine ⟨rfl, ?_, ?_, ?_⟩ <;> with_unfolding_all decide

end Chess

namespace Chess

theorem ifLtMax (x y : XQ) : (if x < y then y else x) = max x y := by
  by_cases h : x < y
  · rw [if_pos h, max_eq_right h.le]
  · rw [if_neg h, max_eq_left (not_lt.mp h)]

theorem ifLtMin (x y : XQ) : (if y < x then y else x) = min x y := by
  by_cases h : y < x
  · rw [if_pos h, min_eq_right h.le]
  · rw [if_neg h, min_eq_left (not_lt.mp h)]

theorem fmMaxGo_le {Pos Move : Type} (g : Game Pos Move) (recurseT : Pos → Option Move × XQ) :
    ∀ (ms : List Move) (pos : Pos) (acc : XQ) (bm : Option Move),
      acc ≤ (fmMaxGo g recurseT ms pos acc bm).2 := by
  intro ms
  induction ms with
  | nil => intro pos acc bm; exact le_refl _
  | cons m rest ih =>
      intro pos acc bm
      simp only [fmMaxGo]
      by_cases h : acc < (recurseT (g.makeMove pos m)).2
      · rw [if_pos h, if_pos h]
        exact h.le.trans (ih pos _ _)
      · rw [if_neg h, if_neg h]
        exact ih pos _ _

theorem fmMinGo_le {Pos Move : Type} (g : Game Pos Move) (recurseT : Pos → Option Move × XQ) :
    ∀ (ms : List Move) (pos : Pos) (acc : XQ) (bm : Option Move),
      (fmMinGo g recurseT ms pos acc bm).2 ≤ acc := by
  intro ms
  induction ms with
  | nil => intro pos acc bm; exact le_refl _
  | cons m rest ih =>
      intro pos acc bm
      simp only [fmMinGo]
      by_cases h : (recurseT (g.makeMove pos m)).2 < acc
      · rw [if_pos h, if_pos h]
        exact (ih pos _ _).trans h.le
      · rw [if_neg h, if_neg h]
        exact ih pos _ _

theorem abMaxGo_ne_top {Pos Move : Type} (g : Game Pos Move)
    (recurse : Pos → XQ → XQ → Option Move × XQ) (beta : XQ)
    (hrec : ∀ p a b, (recurse p a b).2 ≠ ⊤) :
    ∀ (ms : List Move) (pos : Pos) (acc : XQ) (bm : Option Move) (a : XQ), acc ≠ ⊤ →
      (abMaxGo g recurse beta ms pos acc bm a).2 ≠ ⊤ := by
  intro ms
  induction ms with
  | nil => intro pos acc bm a h; exact h
  | cons m rest ih =>
      intro pos acc bm a hne
      simp only [abMaxGo]
      have hacc1 : (if acc < (recurse (g.makeMove pos m) a beta).2
          then (recurse (g.makeMove pos m) a beta).2 else acc) ≠ ⊤ := by
        by_cases h : acc < (recurse (g.makeMove pos m) a beta).2
        · rw [if_pos h]; exact hrec _ _ _
        · rw [if_neg h]; exact hne
      by_cases hbr : beta ≤ max a (recurse (g.makeMove pos m) a beta).2
      · rw [if_pos hbr]; exact hacc1
      · rw [if_neg hbr]; exact ih pos _ _ _ hacc1

theorem abMinGo_ne_top {Pos Move : Type} (g : Game Pos Move)
    (recurse : Pos → XQ → XQ → Option Move × XQ) (alpha : XQ)
    (hrec : ∀ p a b, (recurse p a b).2 ≠ ⊤) :
    ∀ (ms : List Move) (pos : Pos) (acc : XQ) (bm : Option Move) (b : XQ),
      (acc ≠ ⊤ ∨ ms ≠ []) →
      (abMinGo g recurse alpha ms pos acc bm b).2 ≠ ⊤ := by
  intro ms
  induction ms with
  | nil =>
      intro pos acc bm b h
      exact h.resolve_right (fun hc => hc rfl)
  | cons m rest ih =>
      intro pos acc bm b _
      simp only [abMinGo]
      have hacc1 : (if (recurse (g.makeMove pos m) alpha b).2 < acc
          then (recurse (g.makeMove pos m) alpha b).2 else acc) ≠ ⊤ := by
        by_cases h : (recurse (g.makeMove pos m) alpha b).2 < acc
        · rw [if_pos h]; exact hrec _ _ _
        · rw [if_neg h]
          intro htop
          rw [htop] at h
          exact h (lt_top_iff_ne_top.mpr (hrec _ _ _))
      by_cases hbr : min b (recurse (g.makeMove pos m) alpha b).2 ≤ alpha
      · rw [if_pos hbr]; exact hacc1
      · rw [if_neg hbr]; exact ih pos _ _ _ (Or.inl hacc1)

theorem mnc_ne_top {Pos Move : Type} (g : Game Pos Move) (col : Col)
    (hmv : ∀ p, g.moves p = [] → g.isGameOver p = true) :
    ∀ (d : ℕ) (pos : Pos) (alpha beta : XQ) (maxP : Bool),
      (minimaxNoCache g col d pos alpha beta maxP).2 ≠ ⊤ := by
  intro d
  induction d with
  | zero => intro pos alpha beta maxP; exact qf_ne_top _
  | succ d ih =>
      intro pos alpha beta maxP
      simp only [minimaxNoCache]
      by_cases hg : g.isGameOver pos
      · rw [if_pos hg]; exact qf_ne_top _
      · rw [if_neg hg]
        have hms : orderMoves (moveOrderScore g) (g.moves pos) ≠ [] :=
          orderMoves_ne_nil hmv (Bool.eq_false_iff.mpr hg)
        cases maxP
        · rw [if_neg Bool.false_ne_true]
          exact abMinGo_ne_top g _ alpha (fun p a b => ih p a b true) _ pos ⊤ none beta
            (Or.inr hms)
        · rw [if_pos rfl]
          exact abMaxGo_ne_top g _ beta (fun p a b => ih p a b false) _ pos ⊥ none alpha
            (by with_unfolding_all decide)

end Chess

namespace Chess

/-- Fail-soft trichotomy for the maximizing loop: relative to the unpruned
fold, the pruned value is an upper bound when it fails low, exact inside the
window, and a lower bound when it fails high.  The invariants relate the two
accumulators and record that the threaded alpha is the max of the window
alpha and the accumulator. -/
theorem abMax_tri {Pos Move : Type} (g : Game Pos Move)
    (recurse : Pos → XQ → XQ → Option Move × XQ) (recurseT : Pos → Option Move × XQ)
    (alpha beta : XQ)
    (hchild : ∀ p a, a < beta →
      ((recurse p a beta).2 ≤ a → (recurseT p).2 ≤ (recurse p a beta).2) ∧
      (a < (recurse p a beta).2 → (recurse p a beta).2 < beta →
        (recurse p a beta).2 = (recurseT p).2) ∧
      (beta ≤ (recurse p a beta).2 → (recurse p a beta).2 ≤ (recurseT p).2)) :
    ∀ (ms : List Move) (pos : Pos) (acc accT : XQ) (bm bmT : Option Move) (a : XQ),
      accT ≤ acc → (alpha < acc → acc = accT) → a = max alpha acc → a < beta →
      ((abMaxGo g recurse beta ms pos acc bm a).2 ≤ alpha →
        (fmMaxGo g recurseT ms pos accT bmT).2 ≤ (abMaxGo g recurse beta ms pos acc bm a).2) ∧
      (alpha < (abMaxGo g recurse beta ms pos acc bm a).2 →
        (abMaxGo g recurse beta ms pos acc bm a).2 < beta →
        (abMaxGo g recurse beta ms pos acc bm a).2 = (fmMaxGo g recurseT ms pos accT bmT).2) ∧
      (beta ≤ (abMaxGo g recurse beta ms pos acc bm a).2 →
        (abMaxGo g recurse beta ms pos acc bm a).2 ≤ (fmMaxGo g recurseT ms pos accT bmT).2) := by
  intro ms
  induction ms with
  | nil =>
      intro pos acc accT bm bmT a hle hacc ha hab
      simp only [abMaxGo, fmMaxGo]
      refine ⟨fun _ => hle, fun h _ => hacc h, fun h => ?_⟩
      exact absurd ((le_max_right alpha acc).trans_lt (ha ▸ hab)) (not_lt.mpr h)
  | cons m rest ih =>
      intro pos acc accT bm bmT a hle hacc ha hab
      obtain ⟨hc1, hc2, hc3⟩ := hchild (g.makeMove pos m) a hab
      simp only [abMaxGo, fmMaxGo]
      generalize hV : (recurse (g.makeMove pos m) a beta).2 = v at hc1 hc2 hc3 ⊢
      generalize hT : (recurseT (g.makeMove pos m)).2 = t at hc1 hc2 hc3 ⊢
      have haa : alpha ≤ a := by rw [ha]; exact le_max_left _ _
      by_cases hbr : beta ≤ max a v
      · rw [if_pos hbr, ifLtMax, ifLtMax]
        have hbv : beta ≤ v := (le_max_iff.mp hbr).resolve_left (not_le.mpr hab)
        have hvt : v ≤ t := hc3 hbv
        have hav : alpha < beta := lt_of_le_of_lt haa hab
        have hfm : max accT t ≤ (fmMaxGo g recurseT rest pos (max accT t)
            (if accT < t then some m else bmT)).2 := fmMaxGo_le g recurseT rest pos _ _
        refine ⟨fun h => ?_, fun _ h2 => ?_, fun _ => ?_⟩
        · exact absurd (hav.trans_le (hbv.trans ((le_max_right acc v).trans h)))
            (lt_irrefl alpha)
        · exact absurd (lt_of_le_of_lt (hbv.trans (le_max_right acc v)) h2) (lt_irrefl beta)
        · have haccT : acc ≤ (fmMaxGo g recurseT rest pos (max accT t)
              (if accT < t then some m else bmT)).2 := by
            by_cases hca : alpha < acc
            · exact (hacc hca).le.trans ((le_max_left accT t).trans hfm)
            · exact ((not_lt.mp hca).trans
                (hav.le.trans (hbv.trans (hvt.trans (le_max_right accT t))))).trans hfm
          have hvT : v ≤ (fmMaxGo g recurseT rest pos (max accT t)
              (if accT < t then some m else bmT)).2 :=
            (hvt.trans (le_max_right accT t)).trans hfm
          exact max_le haccT hvT
      · rw [if_neg hbr, ifLtMax, ifLtMax]
        have hab1 : max a v < beta := not_le.mp hbr
        have hvb : v < beta := lt_of_le_of_lt (le_max_right a v) hab1
        have htacc1 : t ≤ max acc v := by
          rcases le_or_lt v a with hva | hav2
          · exact (hc1 hva).trans (le_max_right acc v)
          · rw [← hc2 hav2 hvb]; exact le_max_right acc v
        have hinv1 : max accT t ≤ max acc v := max_le (hle.trans (le_max_left acc v)) htacc1
        have hinv2 : alpha < max acc v → max acc v = max accT t := by
          intro h1
          rcases le_or_lt v acc with hva2 | hav3
          · rw [max_eq_left hva2] at h1 ⊢
            have ht' : t ≤ acc := by
              rcases le_or_lt v a with hva | hav2
              · exact (hc1 hva).trans hva2
              · exact (hc2 hav2 hvb) ▸ hva2
            rw [← hacc h1, max_eq_left ht']
          · rw [max_eq_right hav3.le] at h1 ⊢
            have hav4 : a < v := by rw [ha]; exact max_lt h1 hav3
            rw [← hc2 hav4 hvb, max_eq_right (hle.trans hav3.le)]
        have hinv3 : max a v = max alpha (max acc v) := by rw [ha, max_assoc]
        exact ih pos (max acc v) (max accT t) _ _ (max a v) hinv1 hinv2 hinv3 hab1

/-- Fail-soft trichotomy for the minimizing loop, the mirror image of
`abMax_tri`: the threaded beta is the min of the window beta and the
accumulator. -/
theorem abMin_tri {Pos Move : Type} (g : Game Pos Move)
    (recurse : Pos → XQ → XQ → Option Move × XQ) (recurseT : Pos → Option Move × XQ)
    (alpha beta : XQ)
    (hchild : ∀ p b, alpha < b →
      ((recurse p alpha b).2 ≤ alpha → (recurseT p).2 ≤ (recurse p alpha b).2) ∧
      (alpha < (recurse p alpha b).2 → (recurse p alpha b).2 < b →
        (recurse p alpha b).2 = (recurseT p).2) ∧
      (b ≤ (recurse p alpha b).2 → (recurse p alpha b).2 ≤ (recurseT p).2)) :
    ∀ (ms : List Move) (pos : Pos) (acc accT : XQ) (bm bmT : Option Move) (b : XQ),
      acc ≤ accT → (acc < beta → acc = accT) → b = min beta acc → alpha < b →
      ((abMinGo g recurse alpha ms pos acc bm b).2 ≤ alpha →
        (fmMinGo g recurseT ms pos accT bmT).2 ≤ (abMinGo g recurse alpha ms pos acc bm b).2) ∧
      (alpha < (abMinGo g recurse alpha ms pos acc bm b).2 →
        (abMinGo g recurse alpha ms pos acc bm b).2 < beta →
        (abMinGo g recurse alpha ms pos acc bm b).2 = (fmMinGo g recurseT ms pos accT bmT).2) ∧
      (beta ≤ (abMinGo g recurse alpha ms pos acc bm b).2 →
        (abMinGo g recurse alpha ms pos acc bm b).2 ≤ (fmMinGo g recurseT ms pos accT bmT).2) := by
  intro ms
  induction ms with
  | nil =>
      intro pos acc accT bm bmT b hle hacc hb hab
      simp only [abMinGo, fmMinGo]
      refine ⟨fun h => ?_, fun _ h2 => hacc h2, fun _ => hle⟩
      exact absurd ((hb ▸ hab).trans_le (min_le_right beta acc)) (not_lt.mpr h)
  | cons m rest ih =>
      intro pos acc accT bm bmT b hle hacc hb hab
      obtain ⟨hc1, hc2, hc3⟩ := hchild (g.makeMove pos m) b hab
      simp only [abMinGo, fmMinGo]
      generalize hV : (recurse (g.makeMove pos m) alpha b).2 = v at hc1 hc2 hc3 ⊢
      generalize hT : (recurseT (g.makeMove pos m)).2 = t at hc1 hc2 hc3 ⊢
      have hbb : b ≤ beta := by rw [hb]; exact min_le_left _ _
      by_cases hbr : min b v ≤ alpha
      · rw [if_pos hbr, ifLtMin, ifLtMin]
        have hva : v ≤ alpha := (min_le_iff.mp hbr).resolve_left (not_le.mpr hab)
        have htv : t ≤ v := hc1 hva
        have hav : alpha < beta := lt_of_lt_of_le hab hbb
        have hfm : (fmMinGo g recurseT rest pos (min accT t)
            (if t < accT then some m else bmT)).2 ≤ min accT t := fmMinGo_le g recurseT rest pos _ _
        refine ⟨fun _ => ?_, fun h _ => ?_, fun h => ?_⟩
        · have hTv : (fmMinGo g recurseT rest pos (min accT t)
              (if t < accT then some m else bmT)).2 ≤ v :=
            hfm.trans ((min_le_right accT t).trans htv)
          have hTacc : (fmMinGo g recurseT rest pos (min accT t)
              (if t < accT then some m else bmT)).2 ≤ acc := by
            by_cases hca : acc < beta
            · exact (hfm.trans (min_le_left accT t)).trans_eq (hacc hca).symm
            · exact (hTv.trans (hva.trans (hav.le.trans (not_lt.mp hca))))
          exact le_min hTacc hTv
        · exact absurd (h.trans_le ((min_le_right acc v).trans hva)) (lt_irrefl alpha)
        · exact absurd ((h.trans ((min_le_right acc v).trans hva)).trans_lt hav)
            (lt_irrefl beta)
      · rw [if_neg hbr, ifLtMin, ifLtMin]
        have hab1 : alpha < min b v := not_le.mp hbr
        have hav : alpha < v := hab1.trans_le (min_le_right b v)
        have htacc1 : min acc v ≤ t := by
          rcases le_or_lt b v with hbv | hvb2
          · exact (min_le_right acc v).trans (hc3 hbv)
          · exact (min_le_right acc v).trans_eq (hc2 hav hvb2)
        have hinv1 : min acc v ≤ min accT t := le_min ((min_le_left acc v).trans hle) htacc1
        have hinv2 : min acc v < beta → min acc v = min accT t := by
          intro h1
          rcases le_or_lt acc v with hacv | hvac
          · rw [min_eq_left hacv] at h1 ⊢
            have ht' : acc ≤ t := by
              rcases le_or_lt b v with hbv | hvb2
              · exact hacv.trans (hc3 hbv)
              · exact (hc2 hav hvb2) ▸ hacv
            rw [← hacc h1, min_eq_left ht']
          · rw [min_eq_right hvac.le] at h1 ⊢
            have hvb3 : v < b := by rw [hb]; exact lt_min h1 hvac
            rw [← hc2 hav hvb3, min_eq_right (hvac.le.trans hle)]
        have hinv3 : min b v = min beta (min acc v) := by rw [hb, min_assoc]
        exact ih pos (min acc v) (min accT t) _ _ (min b v) hinv1 hinv2 hinv3 hab1

end Chess

namespace Chess

/-- Knuth-Moore fail-soft property of the cache-free pruned search at every
node: below the window the pruned value bounds the true minimax value from
above, inside the window it is exact, above the window it bounds it from
below. -/
theorem km_node {Pos Move : Type} (g : Game Pos Move) (col : Col) :
    ∀ (d : ℕ) (pos : Pos) (alpha beta : XQ) (maxP : Bool), alpha < beta →
      ((minimaxNoCache g col d pos alpha beta maxP).2 ≤ alpha →
        (fullMinimax g col d pos maxP).2 ≤ (minimaxNoCache g col d pos alpha beta maxP).2) ∧
      (alpha < (minimaxNoCache g col d pos alpha beta maxP).2 →
        (minimaxNoCache g col d pos alpha beta maxP).2 < beta →
        (minimaxNoCache g col d pos alpha beta maxP).2 = (fullMinimax g col d pos maxP).2) ∧
      (beta ≤ (minimaxNoCache g col d pos alpha beta maxP).2 →
        (minimaxNoCache g col d pos alpha beta maxP).2 ≤ (fullMinimax g col d pos maxP).2) := by
  intro d
  induction d with
  | zero =>
      intro pos alpha beta maxP hab
      exact ⟨fun _ => le_refl _, fun _ _ => rfl, fun _ => le_refl _⟩
  | succ d ih =>
      intro pos alpha beta maxP hab
      simp only [minimaxNoCache, fullMinimax]
      by_cases hg : g.isGameOver pos
      · rw [if_pos hg, if_pos hg]
        exact ⟨fun _ => le_refl _, fun _ _ => rfl, fun _ => le_refl _⟩
      · rw [if_neg hg, if_neg hg]
        cases maxP
        · rw [if_neg Bool.false_ne_true, if_neg Bool.false_ne_true]
          exact abMin_tri g _ _ alpha beta (fun p b hbp => ih p alpha b true hbp)
            _ pos ⊤ ⊤ none none beta le_rfl (fun h => absurd h not_top_lt)
            (min_eq_left le_top).symm hab
        · rw [if_pos rfl, if_pos rfl]
          exact abMax_tri g _ _ alpha beta (fun p a hap => ih p a beta false hap)
            _ pos ⊥ ⊥ none none alpha le_rfl (fun h => absurd h not_lt_bot)
            (max_eq_left bot_le).symm hab

end Chess

namespace Chess

/-- At the root window (accumulator as alpha, beta = top), the pruned
maximizing loop never cuts and agrees with the unpruned loop on the full
pair (best move and score), provided the children never return top and
satisfy the fail-soft trichotomy. -/
theorem abMax_root {Pos Move : Type} (g : Game Pos Move)
    (recurse : Pos → XQ → XQ → Option Move × XQ) (recurseT : Pos → Option Move × XQ)
    (hfin : ∀ p a, (recurse p a ⊤).2 ≠ ⊤)
    (hchild : ∀ p a, a < ⊤ →
      ((recurse p a ⊤).2 ≤ a → (recurseT p).2 ≤ (recurse p a ⊤).2) ∧
      (a < (recurse p a ⊤).2 → (recurse p a ⊤).2 < ⊤ →
        (recurse p a ⊤).2 = (recurseT p).2) ∧
      (⊤ ≤ (recurse p a ⊤).2 → (recurse p a ⊤).2 ≤ (recurseT p).2)) :
    ∀ (ms : List Move) (pos : Pos) (acc : XQ) (bm : Option Move), acc ≠ ⊤ →
      abMaxGo g recurse ⊤ ms pos acc bm acc = fmMaxGo g recurseT ms pos acc bm := by
  intro ms
  induction ms with
  | nil => intro pos acc bm _; rfl
  | cons m rest ih =>
      intro pos acc bm hne
      obtain ⟨hc1, hc2, hc3⟩ := hchild (g.makeMove pos m) acc (lt_top_iff_ne_top.mpr hne)
      simp only [abMaxGo, fmMaxGo]
      have hvt : (recurse (g.makeMove pos m) acc ⊤).2 ≠ ⊤ := hfin (g.makeMove pos m) acc
      generalize hV : (recurse (g.makeMove pos m) acc ⊤).2 = v at hc1 hc2 hc3 hvt ⊢
      by_cases hlt : acc < v
      · have hvtop : v < ⊤ := lt_top_iff_ne_top.mpr hvt
        have hveq : v = (recurseT (g.makeMove pos m)).2 := hc2 hlt hvtop
        rw [← hveq, if_pos hlt, if_pos hlt, max_eq_right hlt.le,
          if_neg (not_le.mpr hvtop)]
        exact ih pos v (some m) hvt
      · have hta : ¬ acc < (recurseT (g.makeMove pos m)).2 := by
          intro hcon
          exact hlt (hcon.trans_le (hc1 (not_lt.mp hlt)))
        rw [if_neg hlt, if_neg hlt, if_neg hta, if_neg hta,
          max_eq_left (not_lt.mp hlt),
          if_neg (not_le.mpr (lt_top_iff_ne_top.mpr hne))]
        exact ih pos acc bm hne

/-- Claim C2 (amended): the refinement holds of the pruning itself, not of
the shipped search.  With the transposition cache removed (the
configuration of src/src/lib/chess-ai.ts, and ChessBot.minimax minus its
two cache lines) and randomization disabled, the alpha-beta search at the
root window returns exactly the move and score of the unpruned full minimax
over the same game tree, for every position and every depth, given the
rules-engine guarantee that a position with no legal moves is game over.
The cached search refutes the original claim: see
`pruned_ne_fullMinimax`. -/
theorem minimaxNoCache_eq_fullMinimax {Pos Move : Type} (g : Game Pos Move) (col : Col)
    (hmv : ∀ p, g.moves p = [] → g.isGameOver p = true) (d : ℕ) (pos : Pos) :
    minimaxNoCache g col d pos ⊥ ⊤ true = fullMinimax g col d pos true := by
  cases d with
  | zero => rfl
  | succ d =>
      simp only [minimaxNoCache, fullMinimax]
      by_cases hg : g.isGameOver pos
      · rw [if_pos hg, if_pos hg]
      · rw [if_neg hg, if_neg hg, if_pos trivial, if_pos trivial]
        exact abMax_root g _ _ (fun p a => mnc_ne_top g col hmv d p a ⊤ false)
          (fun p a ha => km_node g col d p a ⊤ false ha) _ pos ⊥ none
          (by with_unfolding_all decide)

/-- Witness for C2's amended theorem: at the C2 game (whose move lists are
never empty) the cache-free pruned search at depth 3 coincides with the
full minimax, even though the cached search does not. -/
theorem minimaxNoCache_eq_fullMinimax_witness :
    minimaxNoCache gC2 Col.w 3 [] ⊥ ⊤ true = fullMinimax gC2 Col.w 3 [] true :=
  minimaxNoCache_eq_fullMinimax gC2 Col.w
    (fun p h => absurd h (List.cons_ne_nil 0 (extraC2 p))) 3 []

end Chess
